import Mathlib

/-!
Verification of the kontext repository: a shallow embedding of the
manifest package (pkg/manifest/manifest.go), the diff / layer-synthesis
pass (cmd/kontext/main.go) and the extractor utility, together with
proofs settling the specification claims.

Paths are modelled as lists of characters (Go strings are byte strings;
for the paths manipulated here UTF-8 byte order and code-point order
agree).  Go maps are modelled as association lists whose order stands in
for the map's unspecified iteration order; theorems that depend on
determinism quantify over that order explicitly.
-/

namespace Kontext

/-- A file path, as the list of its characters. -/
abbrev Path := List Char

/-- The path ".". -/
def dotP : Path := ['.']

/-- The path component "..". -/
def ddotP : Path := ['.', '.']

/-- Split a path at every '/' (the components seen by filepath.Clean).
The result is never empty. -/
def splitSlash : Path → List Path
  | [] => [[]]
  | c :: rest =>
    if c = '/' then [] :: splitSlash rest
    else (c :: (splitSlash rest).headD []) :: (splitSlash rest).tail

/-- Join components with '/' (left inverse of splitSlash on slash-free
components). -/
def intercalateSlash : List Path → Path
  | [] => []
  | [g] => g
  | g :: gs => g ++ '/' :: intercalateSlash gs

/-- One step of Go filepath.Clean: process one path element against the
stack of output elements.  Empty and "." elements are dropped; ".."
pops a real element, accumulates at the start of a relative path, and is
dropped at the root of an absolute one; any other element is pushed. -/
def cleanStep (rooted : Bool) (stack : List Path) (comp : Path) : List Path :=
  if comp = [] ∨ comp = dotP then stack
  else if comp = ddotP then
    if stack = [] then (if rooted then [] else [ddotP])
    else if stack.headD [] = ddotP then comp :: stack
    else stack.tail
  else comp :: stack

/-- Go path/filepath.Clean (Unix separator), written with the standard
element-stack presentation of the lazybuf algorithm. -/
def Clean (p : Path) : Path :=
  if p = [] then dotP
  else
    let rooted : Bool := decide (p.head? = some '/')
    let stack := (splitSlash p).foldl (cleanStep rooted) []
    let body := intercalateSlash stack.reverse
    let res := if rooted then '/' :: body else body
    if res = [] then dotP else res

/-- Everything up to and including the final '/' of p; empty when p has
no '/'.  This is the prefix that Go filepath.Dir hands to Clean. -/
def dirPart (p : Path) : Path := (p.reverse.dropWhile (fun c => decide (c ≠ '/'))).reverse

/-- Go filepath.Dir. -/
def Dir (p : Path) : Path := Clean (dirPart p)

/-- Go filepath.Base. -/
def Base (p : Path) : Path :=
  if p = [] then dotP
  else
    let q := (p.reverse.dropWhile (fun c => decide (c = '/'))).reverse
    if q = [] then ['/']
    else (q.reverse.takeWhile (fun c => decide (c ≠ '/'))).reverse

/-- Go filepath.Join on two elements: empty elements are dropped and the
result is Cleaned; Join of two empties is the empty string. -/
def Join (a b : Path) : Path :=
  if a = [] ∧ b = [] then []
  else if a = [] then Clean b
  else if b = [] then Clean a
  else Clean (a ++ '/' :: b)

/-- manifest.normalize. -/
def normalize (p : Path) : Path := Clean p

/-- Bytewise lexicographic comparison: the order used by
sort.StringSlice in manifest.Missing. -/
def pleB : Path → Path → Bool
  | [], _ => true
  | _ :: _, [] => false
  | a :: as, b :: bs => if a < b then true else if b < a then false else pleB as bs

/-- The ≤ relation on paths, as a Prop. -/
def ple (a b : Path) : Prop := pleB a b = true

instance : DecidableRel ple := fun a b => instDecidableEqBool (pleB a b) true

/-- Strict lexicographic comparison. -/
def pltB (a b : Path) : Bool := pleB a b && !(decide (a = b))

/-! ## Association lists: the model of Go maps

The entry order of the list stands in for the map's unspecified
iteration order; operations below have exactly Go map semantics on the
underlying key-value mapping. -/

/-- Go map read m[k]. -/
def lookupKV : List (Path × Path) → Path → Option Path
  | [], _ => none
  | kv :: rest, k => if kv.1 = k then some kv.2 else lookupKV rest k

/-- Go map assignment m[k] = v. -/
def insertKV (fs : List (Path × Path)) (k v : Path) : List (Path × Path) :=
  fs.filter (fun kv => !decide (kv.1 = k)) ++ [(k, v)]

/-- Go delete(m, k). -/
def removeKV (fs : List (Path × Path)) (k : Path) : List (Path × Path) :=
  fs.filter (fun kv => !decide (kv.1 = k))

/-! ## pkg/manifest: the Manifest type and its operations -/

/-- manifest.Manifest: relative path -> SHA256 hex digest (empty for a
directory).  Files is an Option so that the Go zero value (a nil map,
the clean-slate baseline) is distinguished from an allocated empty map,
exactly as in Go. -/
structure Manifest where
  Files : Option (List (Path × Path))
deriving DecidableEq

/-- The key-value pairs of the underlying map (nil map reads as empty). -/
def Manifest.entries (m : Manifest) : List (Path × Path) := m.Files.getD []

/-- The keys of the underlying map. -/
def Manifest.keys (m : Manifest) : List Path := m.entries.map Prod.fst

/-- Raw map read m.Files[k] (no normalization), as used by the JSON
round trip. -/
def Manifest.get (m : Manifest) (k : Path) : Option Path := lookupKV m.entries k

/-- manifest.Has. -/
def Manifest.Has (m : Manifest) (p : Path) : Bool := (m.get (normalize p)).isSome

/-- manifest.Add: initializes the nil map before inserting. -/
def Manifest.Add (m : Manifest) (p v : Path) : Manifest :=
  match m.Files with
  | none => ⟨some [(normalize p, v)]⟩
  | some fs => ⟨some (insertKV fs (normalize p) v)⟩

/-- manifest.Remove (delete on a nil map is a no-op). -/
def Manifest.Remove (m : Manifest) (p : Path) : Manifest :=
  ⟨m.Files.map (fun fs => removeKV fs (normalize p))⟩

/-- manifest.Missing, with the map iteration order made explicit: π is
the order in which `for key := range m.Files` yields the entries (any
permutation of them).  The keys absent from the normalized walk set are
collected and then sorted ascending by sort.StringSlice. -/
def Manifest.MissingOrd (m : Manifest) (π : List (Path × Path) → List (Path × Path))
    (paths : List Path) : List Path :=
  let haveP := paths.map normalize
  List.insertionSort ple (((π m.entries).map Prod.fst).filter (fun k => !decide (k ∈ haveP)))

/-- manifest.Missing with the iteration order as written. -/
def Manifest.Missing (m : Manifest) (paths : List Path) : List Path :=
  m.MissingOrd id paths

/-- The Go zero value manifest.Manifest{}: a nil Files map. -/
def zeroManifest : Manifest := ⟨none⟩

/-- The spec §3 Manifest invariant: keys are distinct (a map) and stored
in normalized form. -/
def Manifest.WF (m : Manifest) : Prop :=
  m.keys.Nodup ∧ ∀ k ∈ m.keys, normalize k = k

instance (m : Manifest) : Decidable m.WF := by unfold Manifest.WF; infer_instance

/-! ## The shape of filepath.Clean output (specification helpers) -/

/-- A plain path element: what Clean copies through unchanged. -/
def PlainComp (g : Path) : Prop := g ≠ [] ∧ '/' ∉ g ∧ g ≠ dotP ∧ g ≠ ddotP

instance : DecidablePred PlainComp := fun g => by unfold PlainComp; infer_instance

/-- Well-formed component list of a cleaned path: nonempty; after a
leading run of ".." elements (allowed only in relative paths) all
elements are plain. -/
def CompsOK (rooted : Bool) (comps : List Path) : Prop :=
  comps ≠ [] ∧ (∀ g ∈ comps.dropWhile (fun g => decide (g = ddotP)), PlainComp g) ∧
    (rooted = true → ∀ g ∈ comps, g ≠ ddotP)

/-- Characterization of the possible outputs of Clean. -/
def CleanShape (p : Path) : Prop :=
  p = dotP ∨ p = ['/'] ∨
    (∃ comps, CompsOK true comps ∧ p = '/' :: intercalateSlash comps) ∨
    (∃ comps, CompsOK false comps ∧ p = intercalateSlash comps)

/-- Invariant of the Clean element stack. -/
def StackOK (rooted : Bool) (s : List Path) : Prop :=
  ∃ pl k, (∀ g ∈ pl, PlainComp g) ∧ s = pl ++ List.replicate k ddotP ∧
    (rooted = true → k = 0)

/-! ## Directory trees and the walk (filepath.Walk over the context) -/

/-! A directory tree: regular file contents are byte lists.  A forest
lists a directory's children in the order filepath.Walk visits them
(Go sorts names per directory; well-formedness below requires that). -/
mutual
inductive FsTree where
  | file : List Nat → FsTree
  | dir : FsForest → FsTree
inductive FsForest where
  | nil : FsForest
  | cons : Path → FsTree → FsForest → FsForest
end

/-- A valid file name: nonempty, no separator, not "." or "..". -/
def validName (n : Path) : Prop := n ≠ [] ∧ '/' ∉ n ∧ n ≠ dotP ∧ n ≠ ddotP

instance : DecidablePred validName := fun n => by unfold validName; infer_instance

/-- n is strictly below every name in the forest. -/
def ltAllB (n : Path) : FsForest → Bool
  | .nil => true
  | .cons n2 _ rest => pltB n n2 && ltAllB n rest

mutual
def treeWFb : FsTree → Bool
  | .file _ => true
  | .dir f => forestWFb f
def forestWFb : FsForest → Bool
  | .nil => true
  | .cons n t rest => decide (validName n) && treeWFb t && forestWFb rest && ltAllB n rest
end

/-- The relative path of a child named n of the entry at relative path
rel: this is exactly path[len(directory)+1:] in the walk callback. -/
def childRel (rel n : Path) : Path := if rel = dotP then n else rel ++ '/' :: n

/-- A walked entry: relative path, directory flag and (for files) the
bytes; this is what the walk callback learns from path and FileInfo. -/
structure DirEntry where
  relPath : Path
  isDir : Bool
  content : List Nat
deriving DecidableEq

/-! filepath.Walk from an entry whose relative path is rel: the entry
itself, then its children depth first in forest order.  Tree
well-formedness: every directory lists valid, strictly ascending child
names. -/
mutual
def walkFrom : Path → FsTree → List DirEntry
  | rel, .file c => [⟨rel, false, c⟩]
  | rel, .dir f => ⟨rel, true, []⟩ :: walkForest rel f
def walkForest : Path → FsForest → List DirEntry
  | _, .nil => []
  | rel, .cons n t rest => walkFrom (childRel rel n) t ++ walkForest rel rest
end

/-- filepath.Walk over the context directory: the root is visited first
and its relative path is ".". -/
def walk (t : FsTree) : List DirEntry := walkFrom dotP t

/-- The walked relative paths, in walk order (allPaths in the source). -/
def walkPaths (t : FsTree) : List Path := (walk t).map DirEntry.relPath

/-- Child lookup by name. -/
def lookupForest : FsForest → Path → Option FsTree
  | .nil, _ => none
  | .cons n t rest, k => if n = k then some t else lookupForest rest k

/-- The subtree at a chain of names (recursion on the chain). -/
def subtreeAt : FsTree → List Path → Option FsTree
  | t, [] => some t
  | .file _, _ :: _ => none
  | .dir f, n :: rest =>
    match lookupForest f n with
    | none => none
    | some c => subtreeAt c rest

/-- The relative path named by a nonempty chain of names. -/
def pathOfChain (ch : List Path) : Path := intercalateSlash ch

/-! ## cmd/kontext: the diff pass and layer synthesis -/

/-- Mount path for the payload (BasePath in main.go). -/
def basePathC : Path := "/var/run/kontext".data

/-- Well-known manifest location (ManifestPath in main.go). -/
def manifestPathC : Path := "/var/lib/kontext/manifest.json".data

/-- A tar archive entry, with the header fields the source sets.  The
source sets no timestamps or owner bits (they are zero on every run),
so the byte serialization of an archive is an injective function of
this entry list. -/
inductive TarType where
  | dir : TarType
  | reg : TarType
deriving DecidableEq

structure TarEntry where
  name : Path
  typeflag : TarType
  mode : Nat
  size : Nat
  content : List Nat
deriving DecidableEq

/-- manifest.Value: empty digest for directories, the content hash for
files.  H is the SHA256 hex digest function, kept abstract (the claims
never depend on concrete digest values). -/
def valueOf (H : List Nat → Path) (e : DirEntry) : Path :=
  if e.isDir then [] else H e.content

/-- State threaded through the walk callback of writeNewFiles. -/
structure DiffState where
  tar : List TarEntry
  count : Nat
  m : Manifest
  allPaths : List Path

/-- One iteration of the walk callback in writeNewFiles: record the
path as seen; skip it if the manifest already has it; otherwise count
it, add it to the manifest and write its archive entry (fixed mode
0555) under the mount path. -/
def step1 (H : List Nat → Path) (s : DiffState) (e : DirEntry) : DiffState :=
  let i := valueOf H e
  let allPaths := s.allPaths ++ [e.relPath]
  if s.m.Has e.relPath then ⟨s.tar, s.count, s.m, allPaths⟩
  else
    let m := s.m.Add e.relPath i
    let newPath := Join basePathC e.relPath
    if e.isDir then
      ⟨s.tar ++ [⟨newPath, .dir, 0o555, 0, []⟩], s.count + 1, m, allPaths⟩
    else
      ⟨s.tar ++ [⟨newPath, .reg, 0o555, e.content.length, e.content⟩], s.count + 1, m, allPaths⟩

/-- The whiteout tar entry synthesized for a missing path: the base
name is marked with the ".wh." marker inside the missing path's parent
directory under the mount path. -/
def whEntryFor (p : Path) : TarEntry :=
  let newPath := Clean (Join basePathC p)
  ⟨Join (Dir newPath) (".wh.".data ++ Base newPath), TarType.reg, 0, 0, []⟩

/-- State of the whiteout loop. -/
structure WhState where
  m : Manifest
  count : Nat
  tar : List TarEntry

/-- The whiteout loop of writeNewFiles: for each missing path, count
it and remove it from the manifest; write its whiteout entry only if
its containing directory is still present in the manifest. -/
def phase2 : WhState → List Path → WhState
  | s, [] => s
  | s, p :: rest =>
    let count := s.count + 1
    let m := s.m.Remove p
    if m.Has (Dir p) then phase2 ⟨m, count, s.tar ++ [whEntryFor p]⟩ rest
    else phase2 ⟨m, count, s.tar⟩ rest

/-- writeNewFiles: the walk pass followed by the whiteout loop.
Returns the data layer (as its entry list), the changed count, and the
updated manifest.  π is the map iteration order used by Missing. -/
def writeNewFiles (H : List Nat → Path) (π : List (Path × Path) → List (Path × Path))
    (m0 : Manifest) (entries : List DirEntry) : List TarEntry × Nat × Manifest :=
  let s1 := entries.foldl (step1 H) ⟨[], 0, m0, []⟩
  let s2 := phase2 ⟨s1.m, s1.count, s1.tar⟩ (s1.m.MissingOrd π s1.allPaths)
  (s2.tar, s2.count, s2.m)

/-- The walk-phase state of writeNewFiles (exposed for the theorems). -/
def diffPhase1 (H : List Nat → Path) (m0 : Manifest) (entries : List DirEntry) : DiffState :=
  entries.foldl (step1 H) ⟨[], 0, m0, []⟩

/-! ## The manifest layer (JSON encoding) -/

/-- encoding/json escaping of one character inside a string literal
(quotation mark and backslash; Go additionally escapes control and
HTML characters, which never occur in the paths and digests here). -/
def escChar (c : Char) : List Char :=
  if c = '"' ∨ c = '\\' then ['\\', c] else [c]

/-- A JSON string literal. -/
def quoteP (s : Path) : Path := '"' :: (s.flatMap escChar ++ ['"'])

/-- The members of a JSON object, comma separated. -/
def renderPairs : List (Path × Path) → Path
  | [] => []
  | [(k, v)] => quoteP k ++ ':' :: quoteP v
  | (k, v) :: rest => quoteP k ++ ':' :: quoteP v ++ ',' :: renderPairs rest

/-- json.Marshal of a Manifest: the files field is omitted when the map
is empty or nil (omitempty), and map keys are emitted in sorted order,
as encoding/json does. -/
def jsonEncodeManifest (m : Manifest) : List (Path × Path) :=
  (List.insertionSort ple m.keys).map (fun k => (k, (m.get k).getD []))

/-- The rendered JSON bytes of a Manifest (as characters; the paths and
digests involved are ASCII). -/
def jsonRender (l : List (Path × Path)) : Path :=
  if l = [] then "\x7b\x7d".data
  else "\x7b\"files\":\x7b".data ++ renderPairs l ++ "\x7d\x7d".data

/-- json.Decoder.Decode into a fresh Manifest{}: an absent or empty
files object leaves the nil map; otherwise each member is assigned in
order (later duplicates win, as in Go). -/
def jsonDecodeManifest (l : List (Path × Path)) : Manifest :=
  if l = [] then ⟨none⟩
  else ⟨some (l.foldl (fun fs kv => insertKV fs kv.1 kv.2) [])⟩

/-- writeManifest: a single fixed-mode entry at the well-known path
holding the JSON-encoded manifest. -/
def writeManifest (m : Manifest) : List TarEntry :=
  let b := jsonRender (jsonEncodeManifest m)
  [⟨manifestPathC, TarType.reg, 0o555, b.length, b.map Char.toNat⟩]

/-- main after the diff pass: a zero changed count returns before the
manifest layer is built or any push is attempted; otherwise both layers
are produced for publication. -/
def kontextRun (H : List Nat → Path) (π : List (Path × Path) → List (Path × Path))
    (m0 : Manifest) (t : FsTree) : Option (List TarEntry × List TarEntry) :=
  let r := writeNewFiles H π m0 (walk t)
  if r.2.1 = 0 then none
  else some (r.1, writeManifest r.2.2)

/-! ## Derived views of the whiteout loop (for the theorems) -/

/-- The per-candidate decision trace of the whiteout loop: each missing
path paired with whether its whiteout entry was actually written. -/
def whDecisions : Manifest → List Path → List (Path × Bool)
  | _, [] => []
  | m, p :: rest => ((p, (m.Remove p).Has (Dir p))) :: whDecisions (m.Remove p) rest

/-- Removing a list of paths in order. -/
def removeList (m : Manifest) (l : List Path) : Manifest := l.foldl Manifest.Remove m

/-- The missing list computed by a run of writeNewFiles over a tree. -/
def kontextMiss (H : List Nat → Path) (π : List (Path × Path) → List (Path × Path))
    (m0 : Manifest) (t : FsTree) : List Path :=
  (diffPhase1 H m0 (walk t)).m.MissingOrd π (diffPhase1 H m0 (walk t)).allPaths

/-- The whiteout decision trace of a run of writeNewFiles over a tree. -/
def kontextWhTrace (H : List Nat → Path) (π : List (Path × Path) → List (Path × Path))
    (m0 : Manifest) (t : FsTree) : List (Path × Bool) :=
  whDecisions (diffPhase1 H m0 (walk t)).m (kontextMiss H π m0 t)

/-! ## The extractor (cmd/extractor) -/

/-- Target workspace of the extractor. -/
def targetPathC : Path := "/workspace".data

/-! An extraction tree: regular files and directories carry their mode
bits; xirr is any irregular entry (socket, device, symlink that stat
reports as irregular, ...). -/
mutual
inductive XTree where
  | xfile : Nat → List Nat → XTree
  | xdir : Nat → XForest → XTree
  | xirr : Nat → XTree
inductive XForest where
  | nil : XForest
  | cons : Path → XTree → XForest → XForest
end

/-- The filesystem effects the extractor performs, in walk order. -/
inductive FsAction where
  | mkdirAll : Path → Nat → FsAction
  | copyFile : Path → Path → Nat → List Nat → FsAction
deriving DecidableEq

/-- Relative path of a child of the entry at rel (the walk root itself
is skipped, so the root's children have rel = their name). -/
def childRelX (rel n : Path) : Path := if rel = [] then n else rel ++ '/' :: n

/-! The walk body of the extractor at one entry: directories are
re-created under the target with their source mode; regular files have
their parent directory created (mode 0444) and are copied with their
source mode; irregular entries are skipped with a warning. -/
mutual
def extractTree : Path → XTree → List FsAction
  | rel, .xdir mode f =>
    FsAction.mkdirAll (Join targetPathC rel) mode :: extractChildren rel f
  | rel, .xfile mode c =>
    [FsAction.mkdirAll (Dir (Join targetPathC rel)) 0o444,
     FsAction.copyFile (Join basePathC rel) (Join targetPathC rel) mode c]
  | _, .xirr _ => []
def extractChildren : Path → XForest → List FsAction
  | _, .nil => []
  | rel, .cons n t rest => extractTree (childRelX rel n) t ++ extractChildren rel rest
end

/-- The extractor's walk over the mount path: the root entry itself is
skipped, then everything under it is processed depth first. -/
def extractor (root : XForest) : List FsAction := extractChildren [] root

/-- The filesystem effects the extractor performs for the entry at rel
itself (a derived view of the walk body, for the theorems): a directory
is re-created at the target; a regular file gets its parent directory
and a copy; an irregular entry contributes nothing. -/
def xlocalActs (rel : Path) : XTree → List FsAction
  | .xdir mode _ => [FsAction.mkdirAll (Join targetPathC rel) mode]
  | .xfile mode c =>
    [FsAction.mkdirAll (Dir (Join targetPathC rel)) 0o444,
     FsAction.copyFile (Join basePathC rel) (Join targetPathC rel) mode c]
  | .xirr _ => []

/-- Names, well-formedness and subtree lookup for extraction trees. -/
def xnames : XForest → List Path
  | .nil => []
  | .cons n _ rest => n :: xnames rest

def xltAllB (n : Path) : XForest → Bool
  | .nil => true
  | .cons n2 _ rest => pltB n n2 && xltAllB n rest

mutual
def xtreeWFb : XTree → Bool
  | .xfile _ _ => true
  | .xirr _ => true
  | .xdir _ f => xforestWFb f
def xforestWFb : XForest → Bool
  | .nil => true
  | .cons n t rest => decide (validName n) && xtreeWFb t && xforestWFb rest && xltAllB n rest
end

def xlookupForest : XForest → Path → Option XTree
  | .nil, _ => none
  | .cons n t rest, k => if n = k then some t else xlookupForest rest k

def xsubtreeAt : XTree → List Path → Option XTree
  | t, [] => some t
  | .xfile _ _, _ :: _ => none
  | .xirr _, _ :: _ => none
  | .xdir _ f, n :: rest =>
    match xlookupForest f n with
    | none => none
    | some c => xsubtreeAt c rest

/-! # Theorems -/

theorem pleB_total : ∀ a b : Path, pleB a b = true ∨ pleB b a = true
  | [], _ => Or.inl rfl
  | _ :: _, [] => Or.inr rfl
  | a :: as, b :: bs => by
    rcases lt_trichotomy a b with h | h | h
    · left; simp [pleB, h]
    · subst h
      rcases pleB_total as bs with ih | ih
      · left; simp [pleB, lt_irrefl, ih]
      · right; simp [pleB, lt_irrefl, ih]
    · right; simp [pleB, h]

theorem pleB_trans : ∀ a b c : Path,
    pleB a b = true → pleB b c = true → pleB a c = true
  | [], _, _, _, _ => rfl
  | _ :: _, [], _, h, _ => by simp [pleB] at h
  | _ :: _, _ :: _, [], _, h => by simp [pleB] at h
  | a :: as, b :: bs, c :: cs, h1, h2 => by
    rcases lt_trichotomy a b with hab | hab | hab
    · rcases lt_trichotomy b c with hbc | hbc | hbc
      · simp [pleB, lt_trans hab hbc]
      · rw [← hbc]; simp [pleB, hab]
      · simp [pleB, hbc, asymm hbc] at h2
    · rw [hab] at h1 ⊢
      rcases lt_trichotomy b c with hbc | hbc | hbc
      · simp [pleB, hbc]
      · rw [← hbc] at h2 ⊢
        simp only [pleB, if_neg (lt_irrefl b)] at h1 h2 ⊢
        exact pleB_trans as bs cs h1 h2
      · simp [pleB, hbc, asymm hbc] at h2
    · simp [pleB, hab, asymm hab] at h1

theorem pleB_antisymm : ∀ a b : Path,
    pleB a b = true → pleB b a = true → a = b
  | [], [], _, _ => rfl
  | _ :: _, [], h, _ => by simp [pleB] at h
  | [], _ :: _, _, h => by simp [pleB] at h
  | a :: as, b :: bs, h1, h2 => by
    rcases lt_trichotomy a b with hab | hab | hab
    · simp [pleB, hab, asymm hab] at h2
    · rw [hab] at h1 h2 ⊢
      simp only [pleB, if_neg (lt_irrefl b)] at h1 h2
      exact congrArg (b :: ·) (pleB_antisymm as bs h1 h2)
    · simp [pleB, hab, asymm hab] at h1

instance : IsTotal Path ple := ⟨pleB_total⟩
instance : IsTrans Path ple := ⟨pleB_trans⟩
instance : IsAntisymm Path ple := ⟨pleB_antisymm⟩

/-- A nonempty extension of a path is strictly above it in the order. -/
theorem ple_append : ∀ (a b : Path), ple a (a ++ b)
  | [], _ => rfl
  | a :: as, b => by
    simp only [ple, List.cons_append, pleB, lt_irrefl, if_neg (lt_irrefl a)]
    exact ple_append as b

theorem ne_append_of_ne_nil (a : Path) {b : Path} (hb : b ≠ []) : a ≠ a ++ b := by
  intro h
  have : a.length = a.length + b.length := by
    conv_lhs => rw [h]
    simp [List.length_append]
  have : b.length = 0 := by omega
  exact hb (List.length_eq_zero.mp this)

/-! ## Association list and Manifest operation lemmas -/

theorem lookupKV_isSome_iff : ∀ (fs : List (Path × Path)) (k : Path),
    (lookupKV fs k).isSome = true ↔ k ∈ fs.map Prod.fst := by
  intro fs k
  induction fs with
  | nil => simp [lookupKV]
  | cons kv rest ih =>
    by_cases h : kv.1 = k
    · simp [lookupKV, h, ih]
    · simp only [lookupKV, if_neg h, ih, List.map_cons, List.mem_cons]
      constructor
      · exact Or.inr
      · rintro (h2 | h2)
        · exact absurd h2.symm h
        · exact h2

theorem lookupKV_append : ∀ (l1 l2 : List (Path × Path)) (k : Path),
    lookupKV (l1 ++ l2) k =
      match lookupKV l1 k with
      | some v => some v
      | none => lookupKV l2 k := by
  intro l1 l2 k
  induction l1 with
  | nil => simp [lookupKV]
  | cons kv rest ih =>
    by_cases h : kv.1 = k <;> simp [lookupKV, h, ih]

theorem removeKV_cons (kv : Path × Path) (fs : List (Path × Path)) (a : Path) :
    removeKV (kv :: fs) a = if kv.1 = a then removeKV fs a else kv :: removeKV fs a := by
  by_cases h : kv.1 = a <;> simp [removeKV, List.filter_cons, h]

theorem lookupKV_removeKV : ∀ (fs : List (Path × Path)) (a k : Path),
    lookupKV (removeKV fs a) k = if k = a then none else lookupKV fs k := by
  intro fs a k
  induction fs with
  | nil => simp [removeKV, lookupKV]
  | cons kv rest ih =>
    rw [removeKV_cons]
    by_cases h1 : kv.1 = a
    · rw [if_pos h1, ih]
      by_cases h2 : k = a
      · simp [h2]
      · have : kv.1 ≠ k := by rw [h1]; intro h; exact h2 h.symm
        simp [lookupKV, this, h2]
    · rw [if_neg h1]
      by_cases h3 : kv.1 = k
      · have : ¬ k = a := by intro h; exact h1 (h3.trans h)
        simp [lookupKV, h3, this]
      · simp [lookupKV, h3, ih]

theorem lookupKV_insertKV (fs : List (Path × Path)) (a v k : Path) :
    lookupKV (insertKV fs a v) k = if k = a then some v else lookupKV fs k := by
  have e : insertKV fs a v = removeKV fs a ++ [(a, v)] := rfl
  rw [e, lookupKV_append, lookupKV_removeKV]
  by_cases h : k = a
  · simp [h, lookupKV]
  · have h2 : ¬ a = k := fun hh => h hh.symm
    simp only [if_neg h, lookupKV, if_neg h2]
    cases lookupKV fs k <;> rfl

theorem keys_removeKV : ∀ (fs : List (Path × Path)) (a : Path),
    (removeKV fs a).map Prod.fst = (fs.map Prod.fst).filter (fun k => !decide (k = a)) := by
  intro fs a
  induction fs with
  | nil => rfl
  | cons kv rest ih =>
    rw [removeKV_cons]
    by_cases h : kv.1 = a <;> simp [h, List.filter_cons, ih]

theorem nodup_keys_removeKV {fs : List (Path × Path)} (a : Path)
    (h : (fs.map Prod.fst).Nodup) : ((removeKV fs a).map Prod.fst).Nodup := by
  rw [keys_removeKV]; exact h.filter _

theorem keys_insertKV (fs : List (Path × Path)) (a v : Path) :
    (insertKV fs a v).map Prod.fst = (removeKV fs a).map Prod.fst ++ [a] := by
  simp [insertKV, removeKV]

theorem nodup_keys_insertKV {fs : List (Path × Path)} (a v : Path)
    (h : (fs.map Prod.fst).Nodup) : ((insertKV fs a v).map Prod.fst).Nodup := by
  rw [keys_insertKV, keys_removeKV]
  refine List.Nodup.append (h.filter _) (List.nodup_singleton a) ?_
  intro x hx hxa
  rw [List.mem_singleton] at hxa
  rw [List.mem_filter] at hx
  have h2 : (!decide (x = a)) = true := hx.2
  rw [hxa] at h2
  simp at h2

theorem Manifest.entries_Remove (m : Manifest) (a : Path) :
    (m.Remove a).entries = removeKV m.entries (normalize a) := by
  cases h : m.Files <;> simp [Manifest.Remove, Manifest.entries, h, removeKV]

theorem Manifest.entries_Add (m : Manifest) (p v : Path) :
    (m.Add p v).entries = insertKV m.entries (normalize p) v := by
  cases h : m.Files <;> simp [Manifest.Add, Manifest.entries, h, insertKV]

theorem Manifest.get_Remove (m : Manifest) (a k : Path) :
    (m.Remove a).get k = if k = normalize a then none else m.get k := by
  rw [Manifest.get, Manifest.entries_Remove, lookupKV_removeKV]; rfl

theorem Manifest.get_Add (m : Manifest) (p v k : Path) :
    (m.Add p v).get k = if k = normalize p then some v else m.get k := by
  rw [Manifest.get, Manifest.entries_Add, lookupKV_insertKV]; rfl

theorem Manifest.Has_iff_mem_keys (m : Manifest) (p : Path) :
    m.Has p = true ↔ normalize p ∈ m.keys := by
  rw [Manifest.Has, Manifest.keys]; exact lookupKV_isSome_iff _ _

theorem Manifest.get_isSome_iff (m : Manifest) (k : Path) :
    (m.get k).isSome = true ↔ k ∈ m.keys := lookupKV_isSome_iff _ _

theorem Manifest.Has_Remove (m : Manifest) (a p : Path) :
    (m.Remove a).Has p = (if normalize p = normalize a then false else m.Has p) := by
  rw [Manifest.Has, Manifest.get_Remove]
  by_cases h : normalize p = normalize a <;> simp [h, Manifest.Has]

theorem Manifest.Has_Add (m : Manifest) (p v q : Path) :
    (m.Add p v).Has q = (if normalize q = normalize p then true else m.Has q) := by
  rw [Manifest.Has, Manifest.get_Add]
  by_cases h : normalize q = normalize p <;> simp [h, Manifest.Has]

theorem Manifest.keys_Remove (m : Manifest) (a : Path) :
    (m.Remove a).keys = m.keys.filter (fun k => !decide (k = normalize a)) := by
  rw [Manifest.keys, Manifest.entries_Remove, keys_removeKV]; rfl

/-! ## splitSlash and intercalateSlash -/

theorem splitSlash_ne_nil : ∀ p : Path, splitSlash p ≠ []
  | [] => by simp [splitSlash]
  | c :: rest => by by_cases hc : c = '/' <;> simp [splitSlash, hc]

theorem splitSlash_cons_of_ne {c : Char} (hc : ¬ c = '/') (rest : Path) {g : Path}
    {gs : List Path} (h : splitSlash rest = g :: gs) :
    splitSlash (c :: rest) = (c :: g) :: gs := by
  simp [splitSlash, hc, h]

theorem splitSlash_append : ∀ (a b : Path),
    splitSlash (a ++ '/' :: b) = splitSlash a ++ splitSlash b := by
  intro a b
  induction a with
  | nil => simp [splitSlash]
  | cons c as ih =>
    by_cases hc : c = '/'
    · simp [splitSlash, hc, ih]
    · cases h : splitSlash as with
      | nil => exact absurd h (splitSlash_ne_nil as)
      | cons g gs =>
        rw [List.cons_append, splitSlash_cons_of_ne hc _ (by rw [ih, h]; rfl),
          splitSlash_cons_of_ne hc _ h, List.cons_append]
        rfl

theorem splitSlash_noSlash : ∀ p : Path, '/' ∉ p → splitSlash p = [p] := by
  intro p hp
  induction p with
  | nil => rfl
  | cons c rest ih =>
    have hc : ¬ c = '/' := fun h => hp (h ▸ List.mem_cons_self c rest)
    have hr : '/' ∉ rest := fun h => hp (List.mem_cons_of_mem c h)
    rw [splitSlash_cons_of_ne hc _ (ih hr)]

theorem mem_splitSlash_noSlash : ∀ (p : Path), ∀ g ∈ splitSlash p, '/' ∉ g := by
  intro p
  induction p with
  | nil =>
    intro g hg
    simp only [splitSlash, List.mem_singleton] at hg
    rw [hg]
    exact List.not_mem_nil '/'
  | cons c rest ih =>
    intro g hg
    cases h : splitSlash rest with
    | nil => exact absurd h (splitSlash_ne_nil rest)
    | cons g0 gs =>
      have ih0 : '/' ∉ g0 := ih g0 (by rw [h]; exact List.mem_cons_self g0 gs)
      by_cases hc : c = '/'
      · simp only [splitSlash, hc, if_pos rfl] at hg
        rcases List.mem_cons.mp hg with h1 | h1
        · rw [h1]; exact List.not_mem_nil '/'
        · exact ih g h1
      · rw [splitSlash_cons_of_ne hc _ h] at hg
        rcases List.mem_cons.mp hg with h1 | h1
        · rw [h1]
          intro hmem
          rcases List.mem_cons.mp hmem with h2 | h2
          · exact hc h2.symm
          · exact ih0 h2
        · exact ih g (by rw [h]; exact List.mem_cons_of_mem g0 h1)

theorem intercalateSlash_cons (g : Path) (gs : List Path) (h : gs ≠ []) :
    intercalateSlash (g :: gs) = g ++ '/' :: intercalateSlash gs := by
  cases gs with
  | nil => exact absurd rfl h
  | cons g2 gs2 => rfl

theorem splitSlash_intercalateSlash : ∀ comps : List Path, comps ≠ [] →
    (∀ g ∈ comps, '/' ∉ g) → splitSlash (intercalateSlash comps) = comps := by
  intro comps
  induction comps with
  | nil => intro h; exact absurd rfl h
  | cons g gs ih =>
    intro _ hns
    cases gs with
    | nil => exact splitSlash_noSlash g (hns g (List.mem_cons_self g []))
    | cons g2 gs2 =>
      rw [intercalateSlash_cons g (g2 :: gs2) (by simp), splitSlash_append,
        splitSlash_noSlash g (hns g (List.mem_cons_self g (g2 :: gs2))),
        ih (by simp) (fun x hx => hns x (List.mem_cons_of_mem g hx))]
      rfl

/-! ## The stack invariant of Clean and idempotence -/

theorem cleanStep_plain (rooted : Bool) (s : List Path) {g : Path} (hg : PlainComp g) :
    cleanStep rooted s g = g :: s := by
  obtain ⟨h1, _, h3, h4⟩ := hg
  simp only [cleanStep]
  rw [if_neg (by simp [h1, h3]), if_neg h4]

theorem foldl_cleanStep_plain : ∀ (comps : List Path) (rooted : Bool) (s : List Path),
    (∀ g ∈ comps, PlainComp g) →
    List.foldl (cleanStep rooted) s comps = comps.reverse ++ s := by
  intro comps
  induction comps with
  | nil => intro rooted s _; rfl
  | cons g rest ih =>
    intro rooted s hall
    rw [List.foldl_cons, cleanStep_plain rooted s (hall g (List.mem_cons_self g rest)),
      ih rooted (g :: s) (fun x hx => hall x (List.mem_cons_of_mem g hx))]
    simp

theorem cleanStep_ddot : ∀ k : Nat,
    cleanStep false (List.replicate k ddotP) ddotP = List.replicate (k + 1) ddotP := by
  intro k
  cases k with
  | zero => decide
  | succ j =>
    have h1 : ¬ (ddotP = [] ∨ ddotP = dotP) := by decide
    rw [List.replicate_succ]
    simp only [cleanStep, if_neg h1, if_pos rfl]
    simp [List.replicate_succ]

theorem foldl_cleanStep_ddot : ∀ (j k : Nat),
    List.foldl (cleanStep false) (List.replicate k ddotP) (List.replicate j ddotP) =
      List.replicate (j + k) ddotP := by
  intro j
  induction j with
  | zero => intro k; simp
  | succ i ih =>
    intro k
    rw [List.replicate_succ, List.foldl_cons, cleanStep_ddot k, ih (k + 1)]
    congr 1
    omega

theorem stackOK_nil (rooted : Bool) : StackOK rooted [] :=
  ⟨[], 0, by simp, by simp, fun _ => rfl⟩

theorem stackOK_step (rooted : Bool) {s : List Path} (hs : StackOK rooted s)
    {g : Path} (hg : '/' ∉ g) : StackOK rooted (cleanStep rooted s g) := by
  obtain ⟨pl, k, hpl, hse, hk⟩ := hs
  by_cases h1 : g = [] ∨ g = dotP
  · simp only [cleanStep]
    rw [if_pos h1]
    exact ⟨pl, k, hpl, hse, hk⟩
  by_cases h2 : g = ddotP
  · simp only [cleanStep]
    rw [if_neg h1, if_pos h2]
    cases hsc : s with
    | nil =>
      rw [if_pos rfl]
      cases hr : rooted with
      | true =>
        rw [if_pos rfl]
        exact ⟨[], 0, by simp, by simp, fun _ => rfl⟩
      | false =>
        rw [if_neg (by simp)]
        exact ⟨[], 1, by simp, by simp [ddotP], fun h => by simp [hr] at h⟩
    | cons top rest =>
      rw [hsc] at hse
      rw [if_neg (by simp)]
      by_cases h3 : top = ddotP
      · rw [if_pos (by simpa using h3)]
        have hplnil : pl = [] := by
          cases hpc : pl with
          | nil => rfl
          | cons p0 pl2 =>
            rw [hpc, List.cons_append] at hse
            injection hse with htop hrest2
            exact absurd (htop.symm.trans h3)
              ((hpl p0 (by rw [hpc]; exact List.mem_cons_self p0 pl2)).2.2.2)
        rw [hplnil, List.nil_append] at hse
        have hkpos : k ≠ 0 := by
          intro h0
          rw [h0] at hse
          simp at hse
        have hrf : rooted = false := by
          cases hr : rooted with
          | false => rfl
          | true => exact absurd (hk hr) hkpos
        refine ⟨[], k + 1, by simp, ?_, fun h => by simp [hrf] at h⟩
        rw [List.nil_append, h2, hse, List.replicate_succ]
      · rw [if_neg (by simpa using h3)]
        cases hpc : pl with
        | nil =>
          rw [hpc, List.nil_append] at hse
          cases k with
          | zero => simp at hse
          | succ j =>
            rw [List.replicate_succ] at hse
            injection hse with htop hrest2
            exact absurd htop h3
        | cons p0 pl2 =>
          rw [hpc, List.cons_append] at hse
          injection hse with htop hrest2
          refine ⟨pl2, k, fun x hx => hpl x (by rw [hpc]; exact List.mem_cons_of_mem p0 hx),
            ?_, hk⟩
          rw [List.tail_cons, hrest2]
  · have hplain : PlainComp g := by
      refine ⟨?_, hg, ?_, h2⟩
      · intro h; exact h1 (Or.inl h)
      · intro h; exact h1 (Or.inr h)
    rw [cleanStep_plain rooted s hplain]
    refine ⟨g :: pl, k, ?_, by rw [hse]; rfl, hk⟩
    intro x hx
    rcases List.mem_cons.mp hx with hx | hx
    · exact hx ▸ hplain
    · exact hpl x hx

theorem stackOK_foldl (rooted : Bool) : ∀ (comps : List Path) (s : List Path),
    StackOK rooted s → (∀ g ∈ comps, '/' ∉ g) →
    StackOK rooted (List.foldl (cleanStep rooted) s comps) := by
  intro comps
  induction comps with
  | nil => intro s hs _; exact hs
  | cons g rest ih =>
    intro s hs hall
    rw [List.foldl_cons]
    exact ih _ (stackOK_step rooted hs (hall g (List.mem_cons_self g rest)))
      (fun x hx => hall x (List.mem_cons_of_mem g hx))

theorem clean_eq_rooted {p : Path} (hp : p ≠ []) (hr : p.head? = some '/') :
    Clean p = '/' :: intercalateSlash (((splitSlash p).foldl (cleanStep true) []).reverse) := by
  have hd : decide (p.head? = some '/') = true := by simp [hr]
  simp only [Clean, if_neg hp, hd]
  simp

theorem clean_eq_unrooted {p : Path} (hp : p ≠ []) (hr : ¬ p.head? = some '/') :
    Clean p =
      (if intercalateSlash (((splitSlash p).foldl (cleanStep false) []).reverse) = []
       then dotP
       else intercalateSlash (((splitSlash p).foldl (cleanStep false) []).reverse)) := by
  have hd : decide (p.head? = some '/') = false := by simp [hr]
  simp only [Clean, if_neg hp, hd]
  simp

theorem dropWhile_ddot_replicate_append (k : Nat) (X : List Path) :
    (List.replicate k ddotP ++ X).dropWhile (fun g => decide (g = ddotP)) =
      X.dropWhile (fun g => decide (g = ddotP)) := by
  induction k with
  | zero => simp
  | succ j ih => rw [List.replicate_succ, List.cons_append, List.dropWhile_cons]; simp [ih]

theorem dropWhile_ddot_eq_self {X : List Path} (hp : ∀ g ∈ X, PlainComp g) :
    X.dropWhile (fun g => decide (g = ddotP)) = X := by
  cases X with
  | nil => rfl
  | cons g gs =>
    rw [List.dropWhile_cons, if_neg]
    simp only [decide_eq_true_eq]
    exact (hp g (List.mem_cons_self g gs)).2.2.2

theorem intercalateSlash_ne_nil {g : Path} (hg : g ≠ []) (gs : List Path) :
    intercalateSlash (g :: gs) ≠ [] := by
  cases gs with
  | nil => exact hg
  | cons g2 gs2 => simp [intercalateSlash]

theorem headQ_intercalateSlash {g : Path} (hg : g ≠ []) (gs : List Path) :
    (intercalateSlash (g :: gs)).head? = g.head? := by
  cases g with
  | nil => exact absurd rfl hg
  | cons c cs => cases gs <;> rfl

theorem clean_of_compsOK_false {comps : List Path} (h : CompsOK false comps) :
    Clean (intercalateSlash comps) = intercalateSlash comps := by
  obtain ⟨hne, hdrop, _⟩ := h
  have hcomps : comps.takeWhile (fun g => decide (g = ddotP)) ++
      comps.dropWhile (fun g => decide (g = ddotP)) = comps :=
    List.takeWhile_append_dropWhile _ _
  have hddall : ∀ g ∈ comps.takeWhile (fun g => decide (g = ddotP)), g = ddotP := by
    intro g hg
    have := List.mem_takeWhile_imp hg
    simpa using this
  have hall : ∀ g ∈ comps, g = ddotP ∨ PlainComp g := by
    intro g hg
    rw [← hcomps] at hg
    rcases List.mem_append.mp hg with hg | hg
    · exact Or.inl (hddall g hg)
    · exact Or.inr (hdrop g hg)
  have hsf : ∀ g ∈ comps, '/' ∉ g := by
    intro g hg
    rcases hall g hg with hg2 | hg2
    · rw [hg2]; decide
    · exact hg2.2.1
  cases hcc : comps with
  | nil => exact absurd hcc hne
  | cons g0 gs0 =>
    have hg0 : g0 ∈ comps := by rw [hcc]; exact List.mem_cons_self g0 gs0
    have hg0ne : g0 ≠ [] := by
      rcases hall g0 hg0 with hg2 | hg2
      · rw [hg2]; decide
      · exact hg2.1
    have hpne : intercalateSlash comps ≠ [] := by
      rw [hcc]; exact intercalateSlash_ne_nil hg0ne gs0
    have hhead : ¬ (intercalateSlash comps).head? = some '/' := by
      rw [hcc, headQ_intercalateSlash hg0ne gs0]
      rcases hall g0 hg0 with hg2 | hg2
      · rw [hg2]; decide
      · cases hgc : g0 with
        | nil => exact absurd hgc hg2.1
        | cons c0 cs0 =>
          have hc0 : c0 ≠ '/' := by
            intro hc
            apply hg2.2.1
            rw [hgc, ← hc]
            exact List.mem_cons_self c0 cs0
          simp [hc0]
    rw [← hcc]
    rw [clean_eq_unrooted hpne hhead,
      splitSlash_intercalateSlash comps hne hsf]
    have hdds : comps.takeWhile (fun g => decide (g = ddotP)) =
        List.replicate (comps.takeWhile (fun g => decide (g = ddotP))).length ddotP :=
      List.eq_replicate_of_mem hddall
    have hfold : comps.foldl (cleanStep false) [] =
        (comps.dropWhile (fun g => decide (g = ddotP))).reverse ++
          List.replicate (comps.takeWhile (fun g => decide (g = ddotP))).length ddotP := by
      conv_lhs => rw [← hcomps]
      rw [List.foldl_append]
      have h1 : (comps.takeWhile (fun g => decide (g = ddotP))).foldl (cleanStep false) [] =
          List.replicate (comps.takeWhile (fun g => decide (g = ddotP))).length ddotP := by
        conv_lhs => rw [hdds]
        have := foldl_cleanStep_ddot (comps.takeWhile (fun g => decide (g = ddotP))).length 0
        simpa using this
      rw [h1, foldl_cleanStep_plain _ false _ hdrop]
    rw [hfold, List.reverse_append, List.reverse_reverse, List.reverse_replicate, ← hdds,
      hcomps, if_neg hpne]

theorem clean_of_compsOK_true {comps : List Path} (h : CompsOK true comps) :
    Clean ('/' :: intercalateSlash comps) = '/' :: intercalateSlash comps := by
  obtain ⟨hne, hdrop, hnodd⟩ := h
  have hplain : ∀ g ∈ comps, PlainComp g := by
    intro g hg
    have hdw : comps.dropWhile (fun g => decide (g = ddotP)) = comps := by
      cases hcc : comps with
      | nil => rfl
      | cons g0 gs0 =>
        rw [List.dropWhile_cons, if_neg]
        simp only [decide_eq_true_eq]
        exact hnodd rfl g0 (by rw [hcc]; exact List.mem_cons_self g0 gs0)
    exact hdrop g (by rw [hdw]; exact hg)
  have hsf : ∀ g ∈ comps, '/' ∉ g := fun g hg => (hplain g hg).2.1
  have hpne : ('/' :: intercalateSlash comps : Path) ≠ [] := by simp
  have hhead : ('/' :: intercalateSlash comps : Path).head? = some '/' := rfl
  rw [clean_eq_rooted hpne hhead]
  have hsplit : splitSlash ('/' :: intercalateSlash comps) = [] :: comps := by
    have : ('/' :: intercalateSlash comps : Path) = [] ++ '/' :: intercalateSlash comps := rfl
    rw [this, splitSlash_append, splitSlash_intercalateSlash comps hne hsf]
    rfl
  rw [hsplit]
  have hstep : cleanStep true [] [] = [] := by decide
  rw [List.foldl_cons, hstep, foldl_cleanStep_plain comps true [] hplain]
  simp

theorem mem_of_mem_dropWhile {q : Path → Bool} :
    ∀ {X : List Path} {g : Path}, g ∈ X.dropWhile q → g ∈ X := by
  intro X
  induction X with
  | nil => intro g hg; simp at hg
  | cons a l ih =>
    intro g hg
    rw [List.dropWhile_cons] at hg
    by_cases hq : q a = true
    · rw [if_pos hq] at hg
      exact List.mem_cons_of_mem a (ih hg)
    · rw [if_neg hq] at hg
      exact hg

theorem shape_clean : ∀ p : Path, CleanShape (Clean p) := by
  intro p
  by_cases hp : p = []
  · rw [hp]
    exact Or.inl rfl
  have hsf : ∀ g ∈ splitSlash p, '/' ∉ g := mem_splitSlash_noSlash p
  by_cases hr : p.head? = some '/'
  · rw [clean_eq_rooted hp hr]
    obtain ⟨pl, k, hpl, hse, hk⟩ :=
      stackOK_foldl true (splitSlash p) [] (stackOK_nil true) hsf
    rw [hk rfl, List.replicate_zero, List.append_nil] at hse
    rw [hse]
    cases hplrev : pl.reverse with
    | nil => exact Or.inr (Or.inl rfl)
    | cons q qs =>
      refine Or.inr (Or.inr (Or.inl ⟨q :: qs, ⟨by simp, ?_, ?_⟩, rfl⟩))
      · intro g hg
        have hg2 : g ∈ q :: qs := mem_of_mem_dropWhile hg
        have hg3 : g ∈ pl.reverse := by rw [hplrev]; exact hg2
        exact hpl g (List.mem_reverse.mp hg3)
      · intro _ g hg
        have hg3 : g ∈ pl.reverse := by rw [hplrev]; exact hg
        exact (hpl g (List.mem_reverse.mp hg3)).2.2.2
  · rw [clean_eq_unrooted hp hr]
    obtain ⟨pl, k, hpl, hse, hk⟩ :=
      stackOK_foldl false (splitSlash p) [] (stackOK_nil false) hsf
    by_cases hbody :
        intercalateSlash (((splitSlash p).foldl (cleanStep false) []).reverse) = []
    · rw [if_pos hbody]
      exact Or.inl rfl
    · rw [if_neg hbody]
      refine Or.inr (Or.inr (Or.inr ⟨((splitSlash p).foldl (cleanStep false) []).reverse,
        ⟨?_, ?_, ?_⟩, rfl⟩))
      · intro hcon
        exact hbody (by rw [hcon]; rfl)
      · intro g hg
        rw [hse, List.reverse_append, List.reverse_replicate,
          dropWhile_ddot_replicate_append,
          dropWhile_ddot_eq_self (fun x hx => hpl x (List.mem_reverse.mp hx))] at hg
        exact hpl g (List.mem_reverse.mp hg)
      · intro hcon
        simp at hcon

theorem clean_of_shape : ∀ {p : Path}, CleanShape p → Clean p = p := by
  intro p h
  rcases h with h | h | ⟨comps, hok, hpe⟩ | ⟨comps, hok, hpe⟩
  · rw [h]; decide
  · rw [h]; decide
  · rw [hpe]; exact clean_of_compsOK_true hok
  · rw [hpe]; exact clean_of_compsOK_false hok

theorem clean_idem (p : Path) : Clean (Clean p) = Clean p :=
  clean_of_shape (shape_clean p)

theorem normalize_idem (p : Path) : normalize (normalize p) = normalize p :=
  clean_idem p

theorem cleanShape_of_fix {p : Path} (h : Clean p = p) : CleanShape p := by
  rw [← h]
  exact shape_clean p

/-! ## Manifest invariant preservation and the Missing characterization -/

theorem Manifest.WF_Add {m : Manifest} (h : m.WF) (p v : Path) : (m.Add p v).WF := by
  constructor
  · rw [Manifest.keys, Manifest.entries_Add]
    exact nodup_keys_insertKV _ _ h.1
  · intro k hk
    rw [Manifest.keys, Manifest.entries_Add, keys_insertKV] at hk
    rcases List.mem_append.mp hk with hk | hk
    · rw [keys_removeKV, List.mem_filter] at hk
      exact h.2 k hk.1
    · rw [List.mem_singleton] at hk
      rw [hk]
      exact normalize_idem p

theorem Manifest.WF_Remove {m : Manifest} (h : m.WF) (a : Path) : (m.Remove a).WF := by
  constructor
  · rw [Manifest.keys_Remove]
    exact h.1.filter _
  · intro k hk
    rw [Manifest.keys_Remove, List.mem_filter] at hk
    exact h.2 k hk.1

theorem mem_MissingOrd {m : Manifest} {π : List (Path × Path) → List (Path × Path)}
    (hπ : ∀ l, List.Perm (π l) l) (paths : List Path) (k : Path) :
    k ∈ m.MissingOrd π paths ↔ (k ∈ m.keys ∧ k ∉ paths.map normalize) := by
  rw [Manifest.MissingOrd]
  simp only [List.mem_insertionSort, List.mem_filter, Bool.not_eq_eq_eq_not, Bool.not_true,
    decide_eq_false_iff_not]
  constructor
  · rintro ⟨h1, h2⟩
    exact ⟨((hπ m.entries).map Prod.fst).mem_iff.mp h1, h2⟩
  · rintro ⟨h1, h2⟩
    exact ⟨((hπ m.entries).map Prod.fst).mem_iff.mpr h1, h2⟩

theorem sorted_MissingOrd (m : Manifest) (π : List (Path × Path) → List (Path × Path))
    (paths : List Path) : List.Sorted ple (m.MissingOrd π paths) :=
  List.sorted_insertionSort ple _

theorem nodup_MissingOrd {m : Manifest} {π : List (Path × Path) → List (Path × Path)}
    (hπ : ∀ l, List.Perm (π l) l) (hnd : m.keys.Nodup) (paths : List Path) :
    (m.MissingOrd π paths).Nodup := by
  rw [Manifest.MissingOrd]
  refine (List.perm_insertionSort ple _).nodup_iff.mpr ?_
  exact (((hπ m.entries).map Prod.fst).nodup_iff.mpr hnd).filter _

theorem MissingOrd_eq_Missing {m : Manifest} {π : List (Path × Path) → List (Path × Path)}
    (hπ : ∀ l, List.Perm (π l) l) (paths : List Path) :
    m.MissingOrd π paths = m.Missing paths := by
  refine List.eq_of_perm_of_sorted ?_ (sorted_MissingOrd m π paths)
    (sorted_MissingOrd m id paths)
  refine (List.perm_insertionSort ple _).trans (List.Perm.trans ?_
    (List.perm_insertionSort ple _).symm)
  exact ((hπ m.entries).map Prod.fst).filter _

/-- C1: for every baseline Manifest M (satisfying the spec's
normalized-keys invariant) and every list of walked paths P, M.Missing(P)
returns exactly those keys of M that are not present (after
normalization) in P, sorted in ascending lexicographic order, and never
returns a key that is present in P. -/
theorem claim_C1_missing_exact (m : Manifest) (hWF : m.WF) (P : List Path) :
    List.Sorted ple (m.Missing P) ∧
      (∀ k, k ∈ m.Missing P ↔ (k ∈ m.keys ∧ k ∉ P.map normalize)) ∧
      (∀ k ∈ m.Missing P, k ∉ P) := by
  refine ⟨sorted_MissingOrd m id P, ?_, ?_⟩
  · intro k
    exact mem_MissingOrd (fun l => List.Perm.refl l) P k
  · intro k hk hkP
    have h1 := (mem_MissingOrd (fun l => List.Perm.refl l) P k).mp hk
    have h2 : normalize k = k := hWF.2 k h1.1
    exact h1.2 (by rw [← h2]; exact List.mem_map_of_mem normalize hkP)

theorem claim_C1_missing_exact_witness :
    (⟨some [("b".data, "h".data), ("a/x".data, [])]⟩ : Manifest).WF ∧
      (List.Sorted ple
          ((⟨some [("b".data, "h".data), ("a/x".data, [])]⟩ : Manifest).Missing ["b".data]) ∧
        (∀ k, k ∈ (⟨some [("b".data, "h".data), ("a/x".data, [])]⟩ : Manifest).Missing
            ["b".data] ↔
          (k ∈ (⟨some [("b".data, "h".data), ("a/x".data, [])]⟩ : Manifest).keys ∧
            k ∉ (["b".data] : List Path).map normalize)) ∧
        (∀ k ∈ (⟨some [("b".data, "h".data), ("a/x".data, [])]⟩ : Manifest).Missing
            ["b".data], k ∉ (["b".data] : List Path))) :=
  ⟨by decide, claim_C1_missing_exact _ (by decide) _⟩

/-- C10: every Manifest operation is total and well-defined on the
freshly constructed zero-value Manifest, whose underlying map is nil:
Has returns false for every path, Remove is a no-op, Missing returns
the empty list for every input, and Add initializes the map before
inserting, so no operation faults. -/
theorem claim_C10_zero_value_total :
    (∀ p, zeroManifest.Has p = false) ∧
      (∀ p, zeroManifest.Remove p = zeroManifest) ∧
      (∀ P, zeroManifest.Missing P = []) ∧
      (∀ p v, (zeroManifest.Add p v).Files = some [(normalize p, v)]) :=
  ⟨fun _ => rfl, fun _ => rfl, fun _ => rfl, fun _ _ => rfl⟩

/-! ## filepath.Dir on cleaned paths -/

theorem dropWhile_append_all {q : Char → Bool} {X Y : List Char}
    (h : ∀ x ∈ X, q x = true) : (X ++ Y).dropWhile q = Y.dropWhile q := by
  induction X with
  | nil => rfl
  | cons a l ih =>
    rw [List.cons_append, List.dropWhile_cons, if_pos (h a (List.mem_cons_self a l))]
    exact ih (fun x hx => h x (List.mem_cons_of_mem a hx))

theorem dirPart_noSlash {p : Path} (h : '/' ∉ p) : dirPart p = [] := by
  rw [dirPart, List.dropWhile_eq_nil_iff.mpr, List.reverse_nil]
  intro a ha
  simp only [decide_eq_true_eq]
  intro hc
  exact h (by rw [← hc]; exact List.mem_reverse.mp ha)

theorem Dir_noSlash {p : Path} (h : '/' ∉ p) : Dir p = dotP := by
  rw [Dir, dirPart_noSlash h]
  rfl

theorem dirPart_concat {A B : Path} (hB : '/' ∉ B) : dirPart (A ++ '/' :: B) = A ++ ['/'] := by
  have hall : ∀ x ∈ B.reverse, (fun c => decide (c ≠ '/')) x = true := by
    intro x hx
    simp only [ne_eq, decide_eq_true_eq]
    intro hc
    exact hB (by rw [← hc]; exact List.mem_reverse.mp hx)
  rw [dirPart, List.reverse_append, List.reverse_cons, List.append_assoc,
    dropWhile_append_all hall, List.singleton_append, List.dropWhile_cons,
    if_neg (by simp), List.reverse_cons, List.reverse_reverse]

theorem clean_append_slash {A : Path} (hA : A ≠ []) : Clean (A ++ ['/']) = Clean A := by
  have hne : (A ++ ['/'] : Path) ≠ [] := by simp
  have hh : (A ++ ['/'] : Path).head? = A.head? := by
    cases A with
    | nil => exact absurd rfl hA
    | cons c cs => rfl
  have hsp : splitSlash (A ++ ['/']) = splitSlash A ++ [[]] := by
    have e : (A ++ ['/'] : Path) = A ++ '/' :: [] := rfl
    rw [e, splitSlash_append]
    rfl
  have hstep : ∀ (r : Bool) (s : List Path), List.foldl (cleanStep r) s [[]] = s := by
    intro r s
    simp [cleanStep]
  simp only [Clean, if_neg hne, if_neg hA, hh, hsp, List.foldl_append, hstep]

theorem exists_last_slash {p : Path} (h : '/' ∈ p) :
    ∃ A B, p = A ++ '/' :: B ∧ '/' ∉ B := by
  induction p with
  | nil => simp at h
  | cons c rest ih =>
    by_cases hr : '/' ∈ rest
    · obtain ⟨A, B, hAB, hB⟩ := ih hr
      exact ⟨c :: A, B, by rw [hAB]; rfl, hB⟩
    · have hc : c = '/' := by
        rcases List.mem_cons.mp h with h1 | h1
        · exact h1.symm
        · exact absurd h1 hr
      exact ⟨[], rest, by rw [hc]; rfl, hr⟩

theorem inter_concat : ∀ (gs : List Path) (g : Path), gs ≠ [] →
    intercalateSlash (gs ++ [g]) = intercalateSlash gs ++ '/' :: g := by
  intro gs
  induction gs with
  | nil => intro g h; exact absurd rfl h
  | cons g0 gs0 ih =>
    intro g _
    cases gs0 with
    | nil => rfl
    | cons g1 gs1 =>
      rw [List.cons_append,
        intercalateSlash_cons g0 ((g1 :: gs1) ++ [g]) (by simp),
        ih g (by simp),
        intercalateSlash_cons g0 (g1 :: gs1) (by simp)]
      simp

theorem noSlash_inter_short : ∀ {comps : List Path}, comps.length ≤ 1 →
    (∀ g ∈ comps, '/' ∉ g) → '/' ∉ intercalateSlash comps := by
  intro comps h1 h2
  cases comps with
  | nil => simp [intercalateSlash]
  | cons g gs =>
    cases gs with
    | nil => exact h2 g (List.mem_cons_self g [])
    | cons g1 gs1 => simp at h1

theorem dropWhile_append_all_path {X Y : List Path}
    (h : ∀ x ∈ X, x = ddotP) :
    (X ++ Y).dropWhile (fun g => decide (g = ddotP)) =
      Y.dropWhile (fun g => decide (g = ddotP)) := by
  induction X with
  | nil => rfl
  | cons a l ih =>
    rw [List.cons_append, List.dropWhile_cons, if_pos (by simp [h a (List.mem_cons_self a l)])]
    exact ih (fun x hx => h x (List.mem_cons_of_mem a hx))

theorem compsOK_dropLast {r : Bool} {comps : List Path} (h : CompsOK r comps)
    (hne2 : comps.dropLast ≠ []) : CompsOK r comps.dropLast := by
  obtain ⟨hne, hdrop, hnodd⟩ := h
  refine ⟨hne2, ?_, fun hr g hg => hnodd hr g (List.mem_of_mem_dropLast hg)⟩
  have hdd : ∀ g ∈ comps.takeWhile (fun g => decide (g = ddotP)), g = ddotP := by
    intro g hg
    have := List.mem_takeWhile_imp hg
    simpa using this
  cases hpl : comps.dropWhile (fun g => decide (g = ddotP)) with
  | nil =>
    have hall : ∀ g ∈ comps, g = ddotP := by
      intro g hg
      rw [← List.takeWhile_append_dropWhile (fun g => decide (g = ddotP)) comps, hpl,
        List.append_nil] at hg
      exact hdd g hg
    have : comps.dropLast.dropWhile (fun g => decide (g = ddotP)) = [] := by
      rw [List.dropWhile_eq_nil_iff]
      intro a ha
      simp [hall a (List.mem_of_mem_dropLast ha)]
    rw [this]
    intro g hg
    simp at hg
  | cons q qs =>
    have hcomps : comps = comps.takeWhile (fun g => decide (g = ddotP)) ++ q :: qs := by
      rw [← hpl, List.takeWhile_append_dropWhile]
    have hq : PlainComp q := hdrop q (by rw [hpl]; exact List.mem_cons_self q qs)
    have hdl : comps.dropLast =
        comps.takeWhile (fun g => decide (g = ddotP)) ++ (q :: qs).dropLast := by
      conv_lhs => rw [hcomps]
      exact List.dropLast_append_cons
    rw [hdl, dropWhile_append_all_path (fun x hx => hdd x hx)]
    intro g hg
    have h1 : g ∈ (q :: qs).dropLast := mem_of_mem_dropWhile hg
    have h2 : g ∈ q :: qs := List.mem_of_mem_dropLast h1
    exact hdrop g (by rw [hpl]; exact h2)

theorem mem_comps_of_compsOK {r : Bool} {comps : List Path} (h : CompsOK r comps) :
    ∀ g ∈ comps, g = ddotP ∨ PlainComp g := by
  intro g hg
  rw [← List.takeWhile_append_dropWhile (fun g => decide (g = ddotP)) comps] at hg
  rcases List.mem_append.mp hg with hg1 | hg1
  · left
    have := List.mem_takeWhile_imp hg1
    simpa using this
  · exact Or.inr (h.2.1 g hg1)

theorem mem_comps_ne_nil {r : Bool} {comps : List Path} (h : CompsOK r comps) :
    ∀ g ∈ comps, g ≠ [] := by
  intro g hg
  rcases mem_comps_of_compsOK h g hg with h1 | h1
  · rw [h1]; decide
  · exact h1.1

theorem mem_comps_noSlash {r : Bool} {comps : List Path} (h : CompsOK r comps) :
    ∀ g ∈ comps, '/' ∉ g := by
  intro g hg
  rcases mem_comps_of_compsOK h g hg with h1 | h1
  · rw [h1]; decide
  · exact h1.2.1

/-- On a cleaned path that contains a separator and is not the root,
filepath.Dir strictly precedes the path in the sort order (it is a
proper prefix up to the final component). -/
theorem dir_strict_prefix {p : Path} (hfix : Clean p = p) (hslash : '/' ∈ p)
    (hne : p ≠ ['/']) : ple (Dir p) p ∧ Dir p ≠ p := by
  have hshape := cleanShape_of_fix hfix
  rcases hshape with h | h | ⟨comps, hok, hpe⟩ | ⟨comps, hok, hpe⟩
  · rw [h] at hslash; simp [dotP] at hslash
  · exact absurd h hne
  · -- rooted: p = '/' :: intercalateSlash comps
    cases hcl : comps.dropLast with
    | nil =>
      -- single component: p = '/' :: g
      have hint : intercalateSlash comps = comps.getLast hok.1 := by
        conv_lhs => rw [← List.dropLast_append_getLast hok.1, hcl]
        rfl
      have hB : '/' ∉ comps.getLast hok.1 :=
        mem_comps_noSlash hok _ (List.getLast_mem hok.1)
      have hp2 : p = [] ++ '/' :: comps.getLast hok.1 := by
        rw [hpe, hint]
        rfl
      have hdir : Dir p = ['/'] := by
        rw [Dir, hp2, dirPart_concat hB]
        decide
      have hgne : comps.getLast hok.1 ≠ [] :=
        mem_comps_ne_nil hok _ (List.getLast_mem hok.1)
      constructor
      · rw [hdir, hpe]
        have e : ('/' :: intercalateSlash comps : Path) = ['/'] ++ intercalateSlash comps := rfl
        rw [e]
        exact ple_append ['/'] _
      · rw [hdir, hp2]
        simp only [List.nil_append]
        intro hcon
        injection hcon with h1 h2
        exact hgne h2.symm
    | cons d0 ds0 =>
      have hdlne : comps.dropLast ≠ [] := by rw [hcl]; simp
      have hB : '/' ∉ comps.getLast hok.1 :=
        mem_comps_noSlash hok _ (List.getLast_mem hok.1)
      have hsplit : intercalateSlash comps =
          intercalateSlash comps.dropLast ++ '/' :: comps.getLast hok.1 := by
        conv_lhs => rw [← List.dropLast_append_getLast hok.1]
        exact inter_concat _ _ hdlne
      have hp2 : p = ('/' :: intercalateSlash comps.dropLast) ++ '/' :: comps.getLast hok.1 := by
        rw [hpe, hsplit]
        rfl
      have hA : Clean ('/' :: intercalateSlash comps.dropLast) =
          '/' :: intercalateSlash comps.dropLast :=
        clean_of_compsOK_true (compsOK_dropLast hok hdlne)
      have hdir : Dir p = '/' :: intercalateSlash comps.dropLast := by
        rw [Dir, hp2, dirPart_concat hB, clean_append_slash (by simp), hA]
      constructor
      · rw [hdir, hp2]
        exact ple_append _ _
      · rw [hdir, hp2]
        exact ne_append_of_ne_nil _ (by simp)
  · -- relative: p = intercalateSlash comps
    have hlen : 2 ≤ comps.length := by
      by_contra hcon
      push_neg at hcon
      exact noSlash_inter_short (by omega) (mem_comps_noSlash hok) (hpe ▸ hslash)
    have hdlne : comps.dropLast ≠ [] := by
      intro hcon
      have := List.length_dropLast comps
      rw [hcon] at this
      simp at this
      omega
    have hB : '/' ∉ comps.getLast hok.1 :=
      mem_comps_noSlash hok _ (List.getLast_mem hok.1)
    have hsplit : intercalateSlash comps =
        intercalateSlash comps.dropLast ++ '/' :: comps.getLast hok.1 := by
      conv_lhs => rw [← List.dropLast_append_getLast hok.1]
      exact inter_concat _ _ hdlne
    have hAne : intercalateSlash comps.dropLast ≠ [] := by
      cases hdl : comps.dropLast with
      | nil => exact absurd hdl hdlne
      | cons d0 ds0 =>
        refine intercalateSlash_ne_nil ?_ ds0
        exact mem_comps_ne_nil hok d0
          (List.mem_of_mem_dropLast (by rw [hdl]; exact List.mem_cons_self d0 ds0))
    have hA : Clean (intercalateSlash comps.dropLast) = intercalateSlash comps.dropLast :=
      clean_of_compsOK_false (compsOK_dropLast hok hdlne)
    have hdir : Dir p = intercalateSlash comps.dropLast := by
      rw [Dir, hpe, hsplit, dirPart_concat hB, clean_append_slash hAne, hA]
    constructor
    · rw [hdir, hpe, hsplit]
      exact ple_append _ _
    · rw [hdir, hpe, hsplit]
      exact ne_append_of_ne_nil _ (by simp)

theorem clean_Dir (p : Path) : Clean (Dir p) = Dir p := clean_idem _

/-! ## Walk lemmas: the walked paths of a well-formed tree -/

theorem subtreeAt_nil (t : FsTree) : subtreeAt t [] = some t := by
  cases t <;> rfl

theorem subtreeAt_file (c : List Nat) (n : Path) (ch : List Path) :
    subtreeAt (FsTree.file c) (n :: ch) = none := rfl

theorem lookupForest_cons (n : Path) (t : FsTree) (rest : FsForest) (k : Path) :
    lookupForest (FsForest.cons n t rest) k = if n = k then some t else lookupForest rest k := by
  rfl

theorem treeWFb_dir (f : FsForest) : treeWFb (FsTree.dir f) = forestWFb f := rfl

theorem forestWFb_cons {n : Path} {t : FsTree} {rest : FsForest}
    (h : forestWFb (FsForest.cons n t rest) = true) :
    validName n ∧ treeWFb t = true ∧ forestWFb rest = true ∧ ltAllB n rest = true := by
  have h2 : (decide (validName n) && treeWFb t && forestWFb rest && ltAllB n rest) = true := h
  simp only [Bool.and_eq_true, decide_eq_true_eq] at h2
  exact ⟨h2.1.1.1, h2.1.1.2, h2.1.2, h2.2⟩

theorem lookupForest_lt {n : Path} : ∀ {rest : FsForest} {k : Path},
    ltAllB n rest = true → (lookupForest rest k).isSome = true → pltB n k = true
  | .nil, k, _, h2 => by simp [lookupForest] at h2
  | .cons n2 t2 r2, k, h1, h2 => by
    have h3 : (pltB n n2 && ltAllB n r2) = true := h1
    simp only [Bool.and_eq_true] at h3
    rw [lookupForest_cons] at h2
    by_cases hk : n2 = k
    · rw [← hk]; exact h3.1
    · rw [if_neg hk] at h2
      exact lookupForest_lt h3.2 h2

theorem pltB_ne {a b : Path} (h : pltB a b = true) : a ≠ b := by
  have h2 : (pleB a b && !(decide (a = b))) = true := h
  simp only [Bool.and_eq_true, Bool.not_eq_eq_eq_not, Bool.not_true,
    decide_eq_false_iff_not] at h2
  exact h2.2

theorem pathOfChain_append_single {c0 : List Path} (h : c0 ≠ []) (n : Path) :
    pathOfChain (c0 ++ [n]) = pathOfChain c0 ++ '/' :: n :=
  inter_concat c0 n h

theorem pathOfChain_inj {ch1 ch2 : List Path} (h1 : ch1 ≠ []) (h2 : ch2 ≠ [])
    (hv1 : ∀ n ∈ ch1, '/' ∉ n) (hv2 : ∀ n ∈ ch2, '/' ∉ n)
    (heq : pathOfChain ch1 = pathOfChain ch2) : ch1 = ch2 := by
  have e1 := splitSlash_intercalateSlash ch1 h1 hv1
  have e2 := splitSlash_intercalateSlash ch2 h2 hv2
  have heq2 : intercalateSlash ch1 = intercalateSlash ch2 := heq
  rw [← e1, ← e2, heq2]

theorem slash_mem_append_cons (X n : Path) : '/' ∈ X ++ '/' :: n :=
  List.mem_append.mpr (Or.inr (List.mem_cons_self '/' n))

theorem chain_ext_ne_dot {c0 : List Path} (h : c0 ≠ []) (n : Path) :
    pathOfChain (c0 ++ [n]) ≠ dotP := by
  rw [pathOfChain_append_single h n]
  intro hcon
  have : '/' ∈ dotP := by rw [← hcon]; exact slash_mem_append_cons _ n
  simp [dotP] at this

mutual

theorem mem_walkFrom_iff : ∀ (t : FsTree) (c0 : List Path), c0 ≠ [] →
    pathOfChain c0 ≠ dotP → treeWFb t = true → ∀ p : Path,
    (p ∈ (walkFrom (pathOfChain c0) t).map DirEntry.relPath ↔
      ∃ ch, (subtreeAt t ch).isSome = true ∧ p = pathOfChain (c0 ++ ch))
  | .file c, c0, hc0, _, _, p => by
    simp only [walkFrom, List.map_cons, List.map_nil, List.mem_singleton]
    constructor
    · intro hp
      exact ⟨[], by rw [subtreeAt_nil]; rfl, by rw [List.append_nil]; exact hp⟩
    · rintro ⟨ch, hsub, hp⟩
      cases ch with
      | nil => rw [hp, List.append_nil]
      | cons n ch2 => rw [subtreeAt_file] at hsub; simp at hsub
  | .dir f, c0, hc0, hdot, hWF, p => by
    simp only [walkFrom, List.map_cons, List.mem_cons]
    rw [mem_walkForest_iff f c0 hc0 hdot (by rw [← treeWFb_dir]; exact hWF) p]
    constructor
    · rintro (hp | ⟨ch, hchne, hsub, hp⟩)
      · exact ⟨[], by rw [subtreeAt_nil]; rfl, by rw [List.append_nil]; exact hp⟩
      · exact ⟨ch, hsub, hp⟩
    · rintro ⟨ch, hsub, hp⟩
      cases ch with
      | nil => left; rw [hp, List.append_nil]
      | cons n ch2 => exact Or.inr ⟨n :: ch2, by simp, hsub, hp⟩

theorem mem_walkForest_iff : ∀ (f : FsForest) (c0 : List Path), c0 ≠ [] →
    pathOfChain c0 ≠ dotP → forestWFb f = true → ∀ p : Path,
    (p ∈ (walkForest (pathOfChain c0) f).map DirEntry.relPath ↔
      ∃ ch, ch ≠ [] ∧ (subtreeAt (FsTree.dir f) ch).isSome = true ∧
        p = pathOfChain (c0 ++ ch))
  | .nil, c0, _, _, _, p => by
    simp only [walkForest, List.map_nil, List.not_mem_nil, false_iff]
    rintro ⟨ch, hchne, hsub, _⟩
    cases ch with
    | nil => exact hchne rfl
    | cons n ch2 =>
      have : subtreeAt (FsTree.dir FsForest.nil) (n :: ch2) = none := rfl
      rw [this] at hsub
      simp at hsub
  | .cons n t rest, c0, hc0, hdot, hWF, p => by
    obtain ⟨hvn, hWFt, hWFr, hlt⟩ := forestWFb_cons hWF
    have hchild : childRel (pathOfChain c0) n = pathOfChain (c0 ++ [n]) := by
      rw [childRel, if_neg hdot, pathOfChain_append_single hc0 n]
    simp only [walkForest, List.map_append, List.mem_append]
    rw [hchild,
      mem_walkFrom_iff t (c0 ++ [n]) (by simp) (chain_ext_ne_dot hc0 n) hWFt p,
      mem_walkForest_iff rest c0 hc0 hdot hWFr p]
    constructor
    · rintro (⟨ch, hsub, hp⟩ | ⟨ch, hchne, hsub, hp⟩)
      · refine ⟨n :: ch, by simp, ?_, ?_⟩
        · have e : subtreeAt (FsTree.dir (FsForest.cons n t rest)) (n :: ch) =
              subtreeAt t ch := by
            show (match lookupForest (FsForest.cons n t rest) n with
              | none => none
              | some c => subtreeAt c ch) = subtreeAt t ch
            rw [lookupForest_cons, if_pos rfl]
          rw [e]
          exact hsub
        · rw [hp]
          congr 1
          simp
      · cases ch with
        | nil => exact absurd rfl hchne
        | cons k ch2 =>
          have hk : (lookupForest rest k).isSome = true := by
            have e : subtreeAt (FsTree.dir rest) (k :: ch2) =
                (match lookupForest rest k with
                  | none => none
                  | some c => subtreeAt c ch2) := rfl
            rw [e] at hsub
            cases hl : lookupForest rest k with
            | none => rw [hl] at hsub; simp at hsub
            | some c => rfl
          have hnk : n ≠ k := pltB_ne (lookupForest_lt hlt hk)
          refine ⟨k :: ch2, by simp, ?_, hp⟩
          have e : subtreeAt (FsTree.dir (FsForest.cons n t rest)) (k :: ch2) =
              subtreeAt (FsTree.dir rest) (k :: ch2) := by
            show (match lookupForest (FsForest.cons n t rest) k with
              | none => none
              | some c => subtreeAt c ch2) = _
            rw [lookupForest_cons, if_neg hnk]
            rfl
          rw [e]
          exact hsub
    · rintro ⟨ch, hchne, hsub, hp⟩
      cases ch with
      | nil => exact absurd rfl hchne
      | cons k ch2 =>
        have e : subtreeAt (FsTree.dir (FsForest.cons n t rest)) (k :: ch2) =
            (match (if n = k then some t else lookupForest rest k) with
              | none => none
              | some c => subtreeAt c ch2) := by
          show (match lookupForest (FsForest.cons n t rest) k with
            | none => none
            | some c => subtreeAt c ch2) = _
          rw [lookupForest_cons]
        by_cases hk : n = k
        · left
          rw [e, if_pos hk] at hsub
          refine ⟨ch2, hsub, ?_⟩
          rw [hp, ← hk, List.append_cons]
        · right
          refine ⟨k :: ch2, by simp, ?_, hp⟩
          rw [e, if_neg hk] at hsub
          have e2 : subtreeAt (FsTree.dir rest) (k :: ch2) =
              (match lookupForest rest k with
                | none => none
                | some c => subtreeAt c ch2) := rfl
          rw [e2]
          exact hsub

end

theorem lookupForest_valid_WF : ∀ {f : FsForest} {k : Path} {c : FsTree},
    forestWFb f = true → lookupForest f k = some c → validName k ∧ treeWFb c = true
  | .nil, k, c, _, hl => by simp [lookupForest] at hl
  | .cons n t rest, k, c, hWF, hl => by
    obtain ⟨hvn, hWFt, hWFr, _⟩ := forestWFb_cons hWF
    rw [lookupForest_cons] at hl
    by_cases hk : n = k
    · rw [if_pos hk] at hl
      injection hl with hl2
      exact ⟨hk ▸ hvn, hl2 ▸ hWFt⟩
    · rw [if_neg hk] at hl
      exact lookupForest_valid_WF hWFr hl

theorem subtree_chain_valid : ∀ (ch : List Path) (t : FsTree), treeWFb t = true →
    (subtreeAt t ch).isSome = true → ∀ n ∈ ch, validName n
  | [], _, _, _ => by intro n hn; simp at hn
  | k :: ch2, t, hWF, hsub => by
    cases t with
    | file c =>
      rw [subtreeAt_file] at hsub
      simp at hsub
    | dir f =>
      have e : subtreeAt (FsTree.dir f) (k :: ch2) =
          (match lookupForest f k with
            | none => none
            | some c => subtreeAt c ch2) := rfl
      cases hl : lookupForest f k with
      | none => rw [e, hl] at hsub; simp at hsub
      | some c =>
        rw [e, hl] at hsub
        have hv := lookupForest_valid_WF (by rw [← treeWFb_dir]; exact hWF) hl
        intro n hn
        rcases List.mem_cons.mp hn with hn1 | hn1
        · rw [hn1]; exact hv.1
        · exact subtree_chain_valid ch2 c hv.2 hsub n hn1

theorem validName_plain {n : Path} (h : validName n) : PlainComp n := h

theorem clean_fix_validChain {ch : List Path} (hne : ch ≠ [])
    (hv : ∀ n ∈ ch, validName n) : Clean (pathOfChain ch) = pathOfChain ch := by
  apply clean_of_compsOK_false
  refine ⟨hne, ?_, fun h => absurd h Bool.false_ne_true⟩
  intro g hg
  exact validName_plain (hv g (mem_of_mem_dropWhile hg))

theorem pathOfChain_single (n : Path) : pathOfChain [n] = n := rfl

theorem pathOfChain_ne_dot {ch : List Path} (hne : ch ≠ [])
    (hv : ∀ n ∈ ch, validName n) : pathOfChain ch ≠ dotP := by
  cases ch with
  | nil => exact absurd rfl hne
  | cons n ch2 =>
    cases ch2 with
    | nil => exact (hv n (List.mem_cons_self n [])).2.2.1
    | cons m ch3 =>
      intro hcon
      have : '/' ∈ dotP := by
        rw [← hcon, pathOfChain, intercalateSlash_cons n (m :: ch3) (by simp)]
        exact slash_mem_append_cons n _
      simp [dotP] at this

theorem chain_noSlash {ch : List Path} (hv : ∀ n ∈ ch, validName n) :
    ∀ n ∈ ch, '/' ∉ n := fun n hn => (hv n hn).2.1

/-! Nodup of the walked paths. -/

mutual

theorem walkFrom_paths_nodup : ∀ (t : FsTree) (c0 : List Path), c0 ≠ [] →
    pathOfChain c0 ≠ dotP → (∀ n ∈ c0, '/' ∉ n) → treeWFb t = true →
    ((walkFrom (pathOfChain c0) t).map DirEntry.relPath).Nodup
  | .file c, c0, _, _, _, _ => by simp [walkFrom]
  | .dir f, c0, hc0, hdot, hv0, hWF => by
    simp only [walkFrom, List.map_cons]
    rw [List.nodup_cons]
    refine ⟨?_, walkForest_paths_nodup f c0 hc0 hdot hv0 (by rw [← treeWFb_dir]; exact hWF)⟩
    intro hmem
    rw [mem_walkForest_iff f c0 hc0 hdot (by rw [← treeWFb_dir]; exact hWF) _] at hmem
    obtain ⟨ch, hchne, hsub, hp⟩ := hmem
    have hvch : ∀ n ∈ ch, validName n :=
      subtree_chain_valid ch (FsTree.dir f) hWF hsub
    have := pathOfChain_inj hc0 (by simp [hc0]) hv0
      (by
        intro n hn
        rcases List.mem_append.mp hn with h1 | h1
        · exact hv0 n h1
        · exact (hvch n h1).2.1) hp
    have h2 : c0 ++ ch = c0 := by rw [← this]
    have hlen := congrArg List.length h2
    simp at hlen
    exact hchne hlen

theorem walkForest_paths_nodup : ∀ (f : FsForest) (c0 : List Path), c0 ≠ [] →
    pathOfChain c0 ≠ dotP → (∀ n ∈ c0, '/' ∉ n) → forestWFb f = true →
    ((walkForest (pathOfChain c0) f).map DirEntry.relPath).Nodup
  | .nil, _, _, _, _, _ => by simp [walkForest]
  | .cons n t rest, c0, hc0, hdot, hv0, hWF => by
    obtain ⟨hvn, hWFt, hWFr, hlt⟩ := forestWFb_cons hWF
    have hchild : childRel (pathOfChain c0) n = pathOfChain (c0 ++ [n]) := by
      rw [childRel, if_neg hdot, pathOfChain_append_single hc0 n]
    have hv0n : ∀ m ∈ c0 ++ [n], '/' ∉ m := by
      intro m hm
      rcases List.mem_append.mp hm with h1 | h1
      · exact hv0 m h1
      · rw [List.mem_singleton] at h1
        rw [h1]
        exact hvn.2.1
    simp only [walkForest, List.map_append]
    refine List.Nodup.append ?_ (walkForest_paths_nodup rest c0 hc0 hdot hv0 hWFr) ?_
    · rw [hchild]
      exact walkFrom_paths_nodup t (c0 ++ [n]) (by simp) (chain_ext_ne_dot hc0 n) hv0n hWFt
    · intro p hp1 hp2
      rw [hchild,
        mem_walkFrom_iff t (c0 ++ [n]) (by simp) (chain_ext_ne_dot hc0 n) hWFt p] at hp1
      rw [mem_walkForest_iff rest c0 hc0 hdot hWFr p] at hp2
      obtain ⟨ch1, hsub1, hpe1⟩ := hp1
      obtain ⟨ch2, hchne2, hsub2, hpe2⟩ := hp2
      cases ch2 with
      | nil => exact hchne2 rfl
      | cons k ch3 =>
        have hk : (lookupForest rest k).isSome = true := by
          have e : subtreeAt (FsTree.dir rest) (k :: ch3) =
              (match lookupForest rest k with
                | none => none
                | some c => subtreeAt c ch3) := rfl
          rw [e] at hsub2
          cases hl : lookupForest rest k with
          | none => rw [hl] at hsub2; simp at hsub2
          | some c => rfl
        have hnk : n ≠ k := pltB_ne (lookupForest_lt hlt hk)
        have hvch1 : ∀ m ∈ ch1, validName m := subtree_chain_valid ch1 t hWFt hsub1
        have hvch2 : ∀ m ∈ k :: ch3, validName m :=
          subtree_chain_valid (k :: ch3) (FsTree.dir rest) hWFr hsub2
        have heq : pathOfChain ((c0 ++ [n]) ++ ch1) = pathOfChain (c0 ++ k :: ch3) := by
          rw [← hpe1, ← hpe2]
        have hinj := pathOfChain_inj (by simp) (by simp [hc0])
          (by
            intro m hm
            rcases List.mem_append.mp hm with h1 | h1
            · exact hv0n m h1
            · exact (hvch1 m h1).2.1)
          (by
            intro m hm
            rcases List.mem_append.mp hm with h1 | h1
            · exact hv0 m h1
            · exact (hvch2 m h1).2.1) heq
        rw [List.append_assoc, List.singleton_append] at hinj
        have h2 : n :: ch1 = k :: ch3 := List.append_cancel_left hinj
        injection h2 with h3 h4
        exact hnk h3

end

theorem mem_walkForest_dot_iff : ∀ (f : FsForest), forestWFb f = true → ∀ p : Path,
    (p ∈ (walkForest dotP f).map DirEntry.relPath ↔
      ∃ ch, ch ≠ [] ∧ (subtreeAt (FsTree.dir f) ch).isSome = true ∧ p = pathOfChain ch)
  | .nil, _, p => by
    simp only [walkForest, List.map_nil, List.not_mem_nil, false_iff]
    rintro ⟨ch, hchne, hsub, _⟩
    cases ch with
    | nil => exact hchne rfl
    | cons n ch2 =>
      have e : subtreeAt (FsTree.dir FsForest.nil) (n :: ch2) = none := rfl
      rw [e] at hsub
      simp at hsub
  | .cons n t rest, hWF, p => by
    obtain ⟨hvn, hWFt, hWFr, hlt⟩ := forestWFb_cons hWF
    have hchild : childRel dotP n = pathOfChain [n] := by
      rw [childRel, if_pos rfl]
      rfl
    simp only [walkForest, List.map_append, List.mem_append]
    rw [hchild,
      mem_walkFrom_iff t [n] (by simp)
        (by rw [pathOfChain_single]; exact hvn.2.2.1) hWFt p,
      mem_walkForest_dot_iff rest hWFr p]
    constructor
    · rintro (⟨ch, hsub, hp⟩ | ⟨ch, hchne, hsub, hp⟩)
      · refine ⟨n :: ch, by simp, ?_, ?_⟩
        · have e : subtreeAt (FsTree.dir (FsForest.cons n t rest)) (n :: ch) =
              subtreeAt t ch := by
            show (match lookupForest (FsForest.cons n t rest) n with
              | none => none
              | some c => subtreeAt c ch) = subtreeAt t ch
            rw [lookupForest_cons, if_pos rfl]
          rw [e]
          exact hsub
        · exact hp
      · cases ch with
        | nil => exact absurd rfl hchne
        | cons k ch2 =>
          have hk : (lookupForest rest k).isSome = true := by
            have e : subtreeAt (FsTree.dir rest) (k :: ch2) =
                (match lookupForest rest k with
                  | none => none
                  | some c => subtreeAt c ch2) := rfl
            rw [e] at hsub
            cases hl : lookupForest rest k with
            | none => rw [hl] at hsub; simp at hsub
            | some c => rfl
          have hnk : n ≠ k := pltB_ne (lookupForest_lt hlt hk)
          refine ⟨k :: ch2, by simp, ?_, hp⟩
          have e : subtreeAt (FsTree.dir (FsForest.cons n t rest)) (k :: ch2) =
              subtreeAt (FsTree.dir rest) (k :: ch2) := by
            show (match lookupForest (FsForest.cons n t rest) k with
              | none => none
              | some c => subtreeAt c ch2) = _
            rw [lookupForest_cons, if_neg hnk]
            rfl
          rw [e]
          exact hsub
    · rintro ⟨ch, hchne, hsub, hp⟩
      cases ch with
      | nil => exact absurd rfl hchne
      | cons k ch2 =>
        have e : subtreeAt (FsTree.dir (FsForest.cons n t rest)) (k :: ch2) =
            (match (if n = k then some t else lookupForest rest k) with
              | none => none
              | some c => subtreeAt c ch2) := by
          show (match lookupForest (FsForest.cons n t rest) k with
            | none => none
            | some c => subtreeAt c ch2) = _
          rw [lookupForest_cons]
        by_cases hk : n = k
        · left
          rw [e, if_pos hk] at hsub
          refine ⟨ch2, hsub, ?_⟩
          rw [hp, ← hk]
          rfl
        · right
          refine ⟨k :: ch2, by simp, ?_, hp⟩
          rw [e, if_neg hk] at hsub
          have e2 : subtreeAt (FsTree.dir rest) (k :: ch2) =
              (match lookupForest rest k with
                | none => none
                | some c => subtreeAt c ch2) := rfl
          rw [e2]
          exact hsub

theorem walkForest_dot_nodup : ∀ (f : FsForest), forestWFb f = true →
    ((walkForest dotP f).map DirEntry.relPath).Nodup
  | .nil, _ => by simp [walkForest]
  | .cons n t rest, hWF => by
    obtain ⟨hvn, hWFt, hWFr, hlt⟩ := forestWFb_cons hWF
    have hchild : childRel dotP n = pathOfChain [n] := by
      rw [childRel, if_pos rfl]
      rfl
    simp only [walkForest, List.map_append]
    refine List.Nodup.append ?_ (walkForest_dot_nodup rest hWFr) ?_
    · rw [hchild]
      exact walkFrom_paths_nodup t [n] (by simp)
        (by rw [pathOfChain_single]; exact hvn.2.2.1)
        (by intro m hm; rw [List.mem_singleton] at hm; rw [hm]; exact hvn.2.1) hWFt
    · intro p hp1 hp2
      rw [hchild,
        mem_walkFrom_iff t [n] (by simp)
          (by rw [pathOfChain_single]; exact hvn.2.2.1) hWFt p] at hp1
      rw [mem_walkForest_dot_iff rest hWFr p] at hp2
      obtain ⟨ch1, hsub1, hpe1⟩ := hp1
      obtain ⟨ch2, hchne2, hsub2, hpe2⟩ := hp2
      cases ch2 with
      | nil => exact hchne2 rfl
      | cons k ch3 =>
        have hk : (lookupForest rest k).isSome = true := by
          have e : subtreeAt (FsTree.dir rest) (k :: ch3) =
              (match lookupForest rest k with
                | none => none
                | some c => subtreeAt c ch3) := rfl
          rw [e] at hsub2
          cases hl : lookupForest rest k with
          | none => rw [hl] at hsub2; simp at hsub2
          | some c => rfl
        have hnk : n ≠ k := pltB_ne (lookupForest_lt hlt hk)
        have hvch1 : ∀ m ∈ ch1, validName m := subtree_chain_valid ch1 t hWFt hsub1
        have hvch2 : ∀ m ∈ k :: ch3, validName m :=
          subtree_chain_valid (k :: ch3) (FsTree.dir rest) hWFr hsub2
        have heq : pathOfChain ([n] ++ ch1) = pathOfChain (k :: ch3) := by
          rw [← hpe1, ← hpe2]
        have hinj := pathOfChain_inj (by simp) (by simp)
          (by
            intro m hm
            rcases List.mem_append.mp hm with h1 | h1
            · rw [List.mem_singleton] at h1
              rw [h1]
              exact hvn.2.1
            · exact (hvch1 m h1).2.1)
          (fun m hm => (hvch2 m hm).2.1) heq
        rw [List.singleton_append] at hinj
        injection hinj with h3 h4
        exact hnk h3

theorem mem_walkPaths_iff {f : FsForest} (hWF : treeWFb (FsTree.dir f) = true) (p : Path) :
    p ∈ walkPaths (FsTree.dir f) ↔
      p = dotP ∨ ∃ ch, ch ≠ [] ∧ (subtreeAt (FsTree.dir f) ch).isSome = true ∧
        p = pathOfChain ch := by
  rw [walkPaths, walk]
  show p ∈ (DirEntry.mk dotP true [] :: walkForest dotP f).map DirEntry.relPath ↔ _
  simp only [List.map_cons, List.mem_cons]
  rw [mem_walkForest_dot_iff f (by rw [← treeWFb_dir]; exact hWF) p]

theorem walkPaths_nodup {f : FsForest} (hWF : treeWFb (FsTree.dir f) = true) :
    (walkPaths (FsTree.dir f)).Nodup := by
  rw [walkPaths, walk]
  show (List.map DirEntry.relPath (DirEntry.mk dotP true [] :: walkForest dotP f)).Nodup
  simp only [List.map_cons]
  rw [List.nodup_cons]
  refine ⟨?_, walkForest_dot_nodup f (by rw [← treeWFb_dir]; exact hWF)⟩
  intro hmem
  rw [mem_walkForest_dot_iff f (by rw [← treeWFb_dir]; exact hWF) dotP] at hmem
  obtain ⟨ch, hchne, hsub, hp⟩ := hmem
  exact pathOfChain_ne_dot hchne
    (subtree_chain_valid ch (FsTree.dir f) hWF hsub) hp.symm

theorem walkPaths_clean {f : FsForest} (hWF : treeWFb (FsTree.dir f) = true) :
    ∀ p ∈ walkPaths (FsTree.dir f), Clean p = p := by
  intro p hp
  rw [mem_walkPaths_iff hWF] at hp
  rcases hp with hp | ⟨ch, hchne, hsub, hp⟩
  · rw [hp]; decide
  · rw [hp]
    exact clean_fix_validChain hchne (subtree_chain_valid ch (FsTree.dir f) hWF hsub)

theorem dot_mem_walkPaths : ∀ t : FsTree, dotP ∈ walkPaths t
  | .file _ => List.mem_cons_self dotP []
  | .dir _ => List.mem_cons_self dotP _

/-! ## Phase 1 of writeNewFiles: the walk callback fold -/

theorem step1_allPaths (H : List Nat → Path) (s : DiffState) (e : DirEntry) :
    (step1 H s e).allPaths = s.allPaths ++ [e.relPath] := by
  rw [step1]
  by_cases h : s.m.Has e.relPath = true
  · rw [if_pos h]
  · rw [if_neg h]
    by_cases h2 : e.isDir = true
    · rw [if_pos h2]
    · rw [if_neg h2]

theorem step1_has (H : List Nat → Path) {s : DiffState} {e : DirEntry}
    (h : s.m.Has e.relPath = true) :
    step1 H s e = ⟨s.tar, s.count, s.m, s.allPaths ++ [e.relPath]⟩ := by
  rw [step1, if_pos h]

theorem step1_m (H : List Nat → Path) (s : DiffState) (e : DirEntry) :
    (step1 H s e).m =
      (if s.m.Has e.relPath = true then s.m else s.m.Add e.relPath (valueOf H e)) := by
  rw [step1]
  by_cases h : s.m.Has e.relPath = true
  · rw [if_pos h, if_pos h]
  · rw [if_neg h, if_neg h]
    by_cases h2 : e.isDir = true
    · rw [if_pos h2]
    · rw [if_neg h2]

theorem step1_count_tar (H : List Nat → Path) (s : DiffState) (e : DirEntry) :
    (step1 H s e).count + s.tar.length = (step1 H s e).tar.length + s.count := by
  rw [step1]
  by_cases h : s.m.Has e.relPath = true
  · rw [if_pos h]
    show s.count + s.tar.length = s.tar.length + s.count
    omega
  · rw [if_neg h]
    by_cases h2 : e.isDir = true
    · rw [if_pos h2]
      show s.count + 1 + s.tar.length = (s.tar ++ [_]).length + s.count
      rw [List.length_append]
      simp
      omega
    · rw [if_neg h2]
      show s.count + 1 + s.tar.length = (s.tar ++ [_]).length + s.count
      rw [List.length_append]
      simp
      omega

theorem foldl_step1_allPaths (H : List Nat → Path) :
    ∀ (entries : List DirEntry) (s : DiffState),
    (entries.foldl (step1 H) s).allPaths = s.allPaths ++ entries.map DirEntry.relPath := by
  intro entries
  induction entries with
  | nil => intro s; simp
  | cons e rest ih =>
    intro s
    rw [List.foldl_cons, ih, step1_allPaths]
    simp

theorem foldl_step1_count_tar (H : List Nat → Path) :
    ∀ (entries : List DirEntry) (s : DiffState),
    (entries.foldl (step1 H) s).count + s.tar.length =
      (entries.foldl (step1 H) s).tar.length + s.count := by
  intro entries
  induction entries with
  | nil => intro s; rw [List.foldl_nil]; omega
  | cons e rest ih =>
    intro s
    rw [List.foldl_cons]
    have h1 := ih (step1 H s e)
    have h2 := step1_count_tar H s e
    omega

theorem foldl_step1_has_mono (H : List Nat → Path) :
    ∀ (entries : List DirEntry) (s : DiffState) (p : Path), s.m.Has p = true →
    ((entries.foldl (step1 H) s).m.Has p) = true := by
  intro entries
  induction entries with
  | nil => intro s p h; exact h
  | cons e rest ih =>
    intro s p h
    rw [List.foldl_cons]
    refine ih (step1 H s e) p ?_
    rw [step1_m]
    by_cases h2 : s.m.Has e.relPath = true
    · rw [if_pos h2]; exact h
    · rw [if_neg h2, Manifest.Has_Add]
      by_cases h3 : normalize p = normalize e.relPath
      · rw [if_pos h3]
      · rw [if_neg h3]; exact h

theorem foldl_step1_get_preserved (H : List Nat → Path) :
    ∀ (entries : List DirEntry) (s : DiffState) (p : Path), s.m.Has p = true →
    ((entries.foldl (step1 H) s).m.get (normalize p)) = s.m.get (normalize p) := by
  intro entries
  induction entries with
  | nil => intro s p _; rfl
  | cons e rest ih =>
    intro s p h
    rw [List.foldl_cons]
    have hstep : (step1 H s e).m.get (normalize p) = s.m.get (normalize p) ∧
        (step1 H s e).m.Has p = true := by
      rw [step1_m]
      by_cases h2 : s.m.Has e.relPath = true
      · rw [if_pos h2]; exact ⟨rfl, h⟩
      · rw [if_neg h2]
        have h3 : normalize p ≠ normalize e.relPath := by
          intro hcon
          rw [Manifest.Has, hcon] at h
          exact h2 h
        constructor
        · rw [Manifest.get_Add, if_neg h3]
        · rw [Manifest.Has_Add, if_neg h3]; exact h
    rw [ih (step1 H s e) p hstep.2, hstep.1]

theorem foldl_step1_WF (H : List Nat → Path) :
    ∀ (entries : List DirEntry) (s : DiffState), s.m.WF →
    ((entries.foldl (step1 H) s).m).WF := by
  intro entries
  induction entries with
  | nil => intro s h; exact h
  | cons e rest ih =>
    intro s h
    rw [List.foldl_cons]
    refine ih (step1 H s e) ?_
    rw [step1_m]
    by_cases h2 : s.m.Has e.relPath = true
    · rw [if_pos h2]; exact h
    · rw [if_neg h2]; exact Manifest.WF_Add h _ _

theorem foldl_step1_count_filter (H : List Nat → Path) :
    ∀ (entries : List DirEntry) (s : DiffState),
    (∀ e ∈ entries, normalize e.relPath = e.relPath) →
    (entries.map DirEntry.relPath).Nodup →
    (entries.foldl (step1 H) s).count =
      s.count + (entries.filter (fun e => !s.m.Has e.relPath)).length := by
  intro entries
  induction entries with
  | nil => intro s _ _; simp
  | cons e rest ih =>
    intro s hclean hnd
    rw [List.map_cons, List.nodup_cons] at hnd
    rw [List.foldl_cons, List.filter_cons]
    by_cases h : s.m.Has e.relPath = true
    · rw [if_neg (by simp [h])]
      have hm : (step1 H s e).m = s.m := by rw [step1_m, if_pos h]
      have hc : (step1 H s e).count = s.count := by rw [step1_has H h]
      rw [ih (step1 H s e) (fun x hx => hclean x (List.mem_cons_of_mem e hx)) hnd.2, hm, hc]
    · rw [if_pos (by simp [h])]
      have hm : (step1 H s e).m = s.m.Add e.relPath (valueOf H e) := by
        rw [step1_m, if_neg h]
      have hc : (step1 H s e).count = s.count + 1 := by
        rw [step1, if_neg h]
        by_cases h2 : e.isDir = true
        · rw [if_pos h2]
        · rw [if_neg h2]
      rw [ih (step1 H s e) (fun x hx => hclean x (List.mem_cons_of_mem e hx)) hnd.2, hm, hc]
      have hfeq : rest.filter (fun x => !(s.m.Add e.relPath (valueOf H e)).Has x.relPath) =
          rest.filter (fun x => !s.m.Has x.relPath) := by
        refine List.filter_congr ?_
        intro x hx
        rw [Manifest.Has_Add]
        have hne : normalize x.relPath ≠ normalize e.relPath := by
          rw [hclean x (List.mem_cons_of_mem e hx), hclean e (List.mem_cons_self e rest)]
          intro hcon
          exact hnd.1 (hcon ▸ List.mem_map_of_mem DirEntry.relPath hx)
        rw [if_neg hne]
      rw [hfeq]
      simp only [List.length_cons]
      omega

theorem foldl_step1_no_entry (H : List Nat → Path) (p : Path) :
    ∀ (entries : List DirEntry) (s : DiffState), s.m.Has p = true →
    (∀ e ∈ entries, Join basePathC e.relPath = Join basePathC p → e.relPath = p) →
    (∀ te ∈ s.tar, te.name ≠ Join basePathC p) →
    ∀ te ∈ (entries.foldl (step1 H) s).tar, te.name ≠ Join basePathC p := by
  intro entries
  induction entries with
  | nil => intro s _ _ h3; exact h3
  | cons e rest ih =>
    intro s h1 h2 h3
    rw [List.foldl_cons]
    refine ih (step1 H s e) ?_ (fun x hx => h2 x (List.mem_cons_of_mem e hx)) ?_
    · rw [step1_m]
      by_cases hh : s.m.Has e.relPath = true
      · rw [if_pos hh]; exact h1
      · rw [if_neg hh, Manifest.Has_Add]
        by_cases h4 : normalize p = normalize e.relPath
        · rw [if_pos h4]
        · rw [if_neg h4]; exact h1
    · intro te hte
      rw [step1] at hte
      by_cases hh : s.m.Has e.relPath = true
      · rw [if_pos hh] at hte
        exact h3 te hte
      · have hne : Join basePathC e.relPath ≠ Join basePathC p := by
          intro hcon
          have := h2 e (List.mem_cons_self e rest) hcon
          rw [this] at hh
          exact hh h1
        rw [if_neg hh] at hte
        by_cases h5 : e.isDir = true
        · rw [if_pos h5] at hte
          rcases List.mem_append.mp hte with h6 | h6
          · exact h3 te h6
          · rw [List.mem_singleton] at h6
            rw [h6]
            exact hne
        · rw [if_neg h5] at hte
          rcases List.mem_append.mp hte with h6 | h6
          · exact h3 te h6
          · rw [List.mem_singleton] at h6
            rw [h6]
            exact hne

/-! ## Join with the mount path on walked paths -/

theorem inter_append : ∀ (A B : List Path), A ≠ [] → B ≠ [] →
    intercalateSlash (A ++ B) = intercalateSlash A ++ '/' :: intercalateSlash B := by
  intro A
  induction A with
  | nil => intro B h _; exact absurd rfl h
  | cons a A2 ih =>
    intro B _ hB
    cases A2 with
    | nil =>
      cases B with
      | nil => exact absurd rfl hB
      | cons b B2 => rfl
    | cons a2 A3 =>
      rw [List.cons_append,
        intercalateSlash_cons a ((a2 :: A3) ++ B) (by simp),
        ih B (by simp) hB,
        intercalateSlash_cons a (a2 :: A3) (by simp)]
      simp

theorem pathOfChain_ne_nil {ch : List Path} (hne : ch ≠ [])
    (hv : ∀ n ∈ ch, validName n) : pathOfChain ch ≠ [] := by
  cases ch with
  | nil => exact absurd rfl hne
  | cons n ch2 =>
    exact intercalateSlash_ne_nil (hv n (List.mem_cons_self n ch2)).1 ch2

theorem basePathC_comps :
    basePathC = '/' :: intercalateSlash ["var".data, "run".data, "kontext".data] := by decide

theorem join_base_validChain {ch : List Path} (hne : ch ≠ [])
    (hv : ∀ n ∈ ch, validName n) :
    Join basePathC (pathOfChain ch) = basePathC ++ '/' :: pathOfChain ch := by
  have hb : basePathC ≠ [] := by decide
  have hc : pathOfChain ch ≠ [] := pathOfChain_ne_nil hne hv
  rw [Join, if_neg (by intro h; exact hb h.1), if_neg hb, if_neg hc]
  have e : basePathC ++ '/' :: pathOfChain ch =
      '/' :: intercalateSlash (["var".data, "run".data, "kontext".data] ++ ch) := by
    rw [inter_append _ ch (by simp) hne, basePathC_comps]
    rfl
  rw [e]
  refine clean_of_compsOK_true ⟨by simp, ?_, ?_⟩
  · intro g hg
    have hg2 := mem_of_mem_dropWhile hg
    rcases List.mem_append.mp hg2 with h1 | h1
    · have h1b : g = "var".data ∨ g = "run".data ∨ g = "kontext".data := by
        simpa using h1
      rcases h1b with h1 | h1 | h1 <;> (rw [h1]; decide)
    · exact validName_plain (hv g h1)
  · intro _ g hg
    rcases List.mem_append.mp hg with h1 | h1
    · have h1b : g = "var".data ∨ g = "run".data ∨ g = "kontext".data := by
        simpa using h1
      rcases h1b with h1 | h1 | h1 <;> (rw [h1]; decide)
    · exact (hv g h1).2.2.2

theorem join_base_dot : Join basePathC dotP = basePathC := by decide

theorem join_base_inj_walk {f : FsForest} (hWF : treeWFb (FsTree.dir f) = true)
    {p q : Path} (hp : p ∈ walkPaths (FsTree.dir f)) (hq : q ∈ walkPaths (FsTree.dir f))
    (heq : Join basePathC p = Join basePathC q) : p = q := by
  rw [mem_walkPaths_iff hWF] at hp hq
  rcases hp with hp | ⟨ch1, hne1, hsub1, hp⟩ <;>
    rcases hq with hq | ⟨ch2, hne2, hsub2, hq⟩
  · rw [hp, hq]
  · rw [hp] at heq
    rw [hq] at heq
    have hv2 := subtree_chain_valid ch2 (FsTree.dir f) hWF hsub2
    rw [join_base_dot, join_base_validChain hne2 hv2] at heq
    have := congrArg List.length heq
    simp at this
  · rw [hp] at heq
    rw [hq] at heq
    have hv1 := subtree_chain_valid ch1 (FsTree.dir f) hWF hsub1
    rw [join_base_dot, join_base_validChain hne1 hv1] at heq
    have := congrArg List.length heq
    simp at this
  · rw [hp] at heq
    rw [hq] at heq
    have hv1 := subtree_chain_valid ch1 (FsTree.dir f) hWF hsub1
    have hv2 := subtree_chain_valid ch2 (FsTree.dir f) hWF hsub2
    rw [join_base_validChain hne1 hv1, join_base_validChain hne2 hv2] at heq
    have h2 := List.append_cancel_left heq
    injection h2 with h3 h4
    rw [hp, hq]
    exact h4

/-! ## Phase 2 of writeNewFiles: the whiteout loop -/

theorem phase2_cons (s : WhState) (p : Path) (rest : List Path) :
    phase2 s (p :: rest) =
      (if (s.m.Remove p).Has (Dir p) = true
       then phase2 ⟨s.m.Remove p, s.count + 1, s.tar ++ [whEntryFor p]⟩ rest
       else phase2 ⟨s.m.Remove p, s.count + 1, s.tar⟩ rest) := rfl

theorem whDecisions_cons (m : Manifest) (p : Path) (rest : List Path) :
    whDecisions m (p :: rest) =
      (p, (m.Remove p).Has (Dir p)) :: whDecisions (m.Remove p) rest := rfl

theorem removeList_cons (m : Manifest) (p : Path) (rest : List Path) :
    removeList m (p :: rest) = removeList (m.Remove p) rest := rfl

theorem phase2_eq : ∀ (l : List Path) (s : WhState),
    phase2 s l =
      ⟨removeList s.m l, s.count + l.length,
        s.tar ++ (whDecisions s.m l).filterMap
          (fun pb => if pb.2 then some (whEntryFor pb.1) else none)⟩ := by
  intro l
  induction l with
  | nil =>
    intro s
    show s = _
    simp [removeList, whDecisions]
  | cons p rest ih =>
    intro s
    rw [phase2_cons, whDecisions_cons, removeList_cons]
    by_cases h : (s.m.Remove p).Has (Dir p) = true
    · rw [if_pos h, ih]
      simp only [List.filterMap_cons, h, WhState.mk.injEq]
      refine ⟨trivial, by simp only [List.length_cons]; omega, ?_⟩
      simp
    · have hb : (s.m.Remove p).Has (Dir p) = false := by
        cases h2 : (s.m.Remove p).Has (Dir p) with
        | false => rfl
        | true => exact absurd h2 h
      rw [if_neg h, ih]
      simp only [List.filterMap_cons, hb, WhState.mk.injEq]
      refine ⟨trivial, by simp only [List.length_cons]; omega, ?_⟩
      simp

theorem mem_whDecisions_fst : ∀ (l : List Path) (m : Manifest) (p : Path) (b : Bool),
    (p, b) ∈ whDecisions m l → p ∈ l := by
  intro l
  induction l with
  | nil => intro m p b h; simp [whDecisions] at h
  | cons q rest ih =>
    intro m p b h
    rw [whDecisions_cons] at h
    rcases List.mem_cons.mp h with h1 | h1
    · injection h1 with h2 _
      rw [h2]
      exact List.mem_cons_self q rest
    · exact List.mem_cons_of_mem q (ih (m.Remove q) p b h1)

theorem removeList_Has_mono_false : ∀ (l : List Path) (m : Manifest) (k : Path),
    m.Has k = false → (removeList m l).Has k = false := by
  intro l
  induction l with
  | nil => intro m k h; exact h
  | cons q rest ih =>
    intro m k h
    rw [removeList_cons]
    refine ih (m.Remove q) k ?_
    rw [Manifest.Has_Remove]
    by_cases h2 : normalize k = normalize q
    · rw [if_pos h2]
    · rw [if_neg h2]; exact h

theorem removeList_Has_preserved : ∀ (l : List Path) (m : Manifest) (k : Path),
    (∀ q ∈ l, normalize q = q) → normalize k ∉ l →
    (removeList m l).Has k = m.Has k := by
  intro l
  induction l with
  | nil => intro m k _ _; rfl
  | cons q rest ih =>
    intro m k hcl hnk
    rw [removeList_cons]
    have h1 : normalize k ≠ q := fun h => hnk (h ▸ List.mem_cons_self q rest)
    have h2 : normalize k ≠ normalize q := by
      rw [hcl q (List.mem_cons_self q rest)]
      exact h1
    rw [ih (m.Remove q) k (fun x hx => hcl x (List.mem_cons_of_mem q hx))
      (fun h => hnk (List.mem_cons_of_mem q h)),
      Manifest.Has_Remove, if_neg h2]

theorem removeList_get_preserved : ∀ (l : List Path) (m : Manifest) (k : Path),
    (∀ q ∈ l, normalize q = q) → normalize k ∉ l →
    (removeList m l).get (normalize k) = m.get (normalize k) := by
  intro l
  induction l with
  | nil => intro m k _ _; rfl
  | cons q rest ih =>
    intro m k hcl hnk
    rw [removeList_cons]
    have h2 : normalize k ≠ normalize q := by
      rw [hcl q (List.mem_cons_self q rest)]
      exact fun h => hnk (h ▸ List.mem_cons_self q rest)
    rw [ih (m.Remove q) k (fun x hx => hcl x (List.mem_cons_of_mem q hx))
      (fun h => hnk (List.mem_cons_of_mem q h)),
      Manifest.get_Remove, if_neg h2]

theorem pairwise_strict_of_sorted_nodup {l : List Path}
    (h1 : List.Sorted ple l) (h2 : l.Nodup) :
    List.Pairwise (fun a b => ple a b ∧ a ≠ b) l := by
  induction l with
  | nil => exact List.Pairwise.nil
  | cons q rest ih =>
    rw [List.sorted_cons] at h1
    rw [List.nodup_cons] at h2
    rw [List.pairwise_cons]
    refine ⟨?_, ih h1.2 h2.2⟩
    intro b hb
    exact ⟨h1.1 b hb, fun h => h2.1 (h ▸ hb)⟩

theorem whDecisions_true_final : ∀ (l : List Path) (m : Manifest) (p : Path),
    List.Pairwise (fun a b => ple a b ∧ a ≠ b) l →
    (∀ q ∈ l, normalize q = q) → dotP ∉ l →
    ((p, true) ∈ whDecisions m l) →
    (removeList m l).Has (Dir p) = true := by
  intro l
  induction l with
  | nil => intro m p _ _ _ h; simp [whDecisions] at h
  | cons q rest ih =>
    intro m p hpw hcl hdot hmem
    rw [whDecisions_cons] at hmem
    rw [removeList_cons]
    rw [List.pairwise_cons] at hpw
    rcases List.mem_cons.mp hmem with h1 | h1
    · injection h1 with h2 h3
      subst h2
      have hdec : (m.Remove p).Has (Dir p) = true := h3.symm
      by_cases hsl : '/' ∈ p
      · by_cases hroot : p = ['/']
        · exfalso
          have : normalize (Dir p) = normalize p := by
            rw [hroot]
            decide
          rw [Manifest.Has_Remove, if_pos this] at hdec
          exact Bool.false_ne_true hdec
        · have hfix : Clean p = p := hcl p (List.mem_cons_self p rest)
          obtain ⟨hple, hne⟩ := dir_strict_prefix hfix hsl hroot
          have hnmem : normalize (Dir p) ∉ rest := by
            rw [show normalize (Dir p) = Dir p from clean_Dir p]
            intro hcon
            obtain ⟨hple2, hne2⟩ := hpw.1 (Dir p) hcon
            exact hne2 (pleB_antisymm p (Dir p) hple2 hple)
          rw [removeList_Has_preserved rest (m.Remove p) (Dir p)
            (fun x hx => hcl x (List.mem_cons_of_mem p hx)) hnmem]
          exact hdec
      · have hdirdot : Dir p = dotP := Dir_noSlash hsl
        have hnmem : normalize (Dir p) ∉ rest := by
          rw [hdirdot]
          show normalize dotP ∉ rest
          rw [show normalize dotP = dotP from by decide]
          exact fun h => hdot (List.mem_cons_of_mem p h)
        rw [removeList_Has_preserved rest (m.Remove p) (Dir p)
          (fun x hx => hcl x (List.mem_cons_of_mem p hx)) hnmem]
        exact hdec
    · exact ih (m.Remove q) p hpw.2
        (fun x hx => hcl x (List.mem_cons_of_mem q hx))
        (fun h => hdot (List.mem_cons_of_mem q h)) h1

theorem whDecisions_false_of_parent : ∀ (l : List Path) (m : Manifest) (p : Path),
    List.Pairwise (fun a b => ple a b ∧ a ≠ b) l →
    (∀ q ∈ l, normalize q = q) → dotP ∉ l →
    p ∈ l → (m.Has (Dir p) = false ∨ Dir p ∈ l) →
    ((p, false) ∈ whDecisions m l) := by
  intro l
  induction l with
  | nil => intro m p _ _ _ h _; simp at h
  | cons q rest ih =>
    intro m p hpw hcl hdot hp hcond
    rw [whDecisions_cons]
    rw [List.pairwise_cons] at hpw
    rcases List.mem_cons.mp hp with h1 | h1
    · subst h1
      have hdec : (m.Remove p).Has (Dir p) = false := by
        rcases hcond with hc | hc
        · rw [Manifest.Has_Remove]
          by_cases h2 : normalize (Dir p) = normalize p
          · rw [if_pos h2]
          · rw [if_neg h2]; exact hc
        · rcases List.mem_cons.mp hc with h2 | h2
          · rw [Manifest.Has_Remove, if_pos (by rw [h2])]
          · exfalso
            obtain ⟨hple2, hne2⟩ := hpw.1 (Dir p) h2
            by_cases hsl : '/' ∈ p
            · by_cases hroot : p = ['/']
              · have : Dir p = p := by rw [hroot]; decide
                rw [this] at h2
                exact hne2 (by rw [this])
              · obtain ⟨hple, hne⟩ :=
                  dir_strict_prefix (hcl p (List.mem_cons_self p rest)) hsl hroot
                exact hne2 (pleB_antisymm p (Dir p) hple2 hple)
            · have hdirdot : Dir p = dotP := Dir_noSlash hsl
              rw [hdirdot] at h2
              exact hdot (List.mem_cons_of_mem p h2)
      rw [hdec]
      exact List.mem_cons_self _ _
    · refine List.mem_cons_of_mem _
        (ih (m.Remove q) p hpw.2 (fun x hx => hcl x (List.mem_cons_of_mem q hx))
          (fun h => hdot (List.mem_cons_of_mem q h)) h1 ?_)
      rcases hcond with hc | hc
      · left
        rw [Manifest.Has_Remove]
        by_cases h2 : normalize (Dir p) = normalize q
        · rw [if_pos h2]
        · rw [if_neg h2]; exact hc
      · rcases List.mem_cons.mp hc with h2 | h2
        · left
          rw [Manifest.Has_Remove, if_pos]
          rw [show normalize (Dir p) = Dir p from clean_Dir p, h2,
            hcl q (List.mem_cons_self q rest)]
        · exact Or.inr h2

/-! ## Glue facts for runs of writeNewFiles over a walked tree -/

theorem diffPhase1_allPaths (H : List Nat → Path) (m0 : Manifest) (entries : List DirEntry) :
    (diffPhase1 H m0 entries).allPaths = entries.map DirEntry.relPath := by
  rw [diffPhase1, foldl_step1_allPaths]
  rfl

theorem diffPhase1_WF (H : List Nat → Path) {m0 : Manifest} (hWF : m0.WF)
    (entries : List DirEntry) : (diffPhase1 H m0 entries).m.WF :=
  foldl_step1_WF H entries ⟨[], 0, m0, []⟩ hWF

theorem writeNewFiles_eq_phase2 (H : List Nat → Path)
    (π : List (Path × Path) → List (Path × Path)) (m0 : Manifest) (t : FsTree) :
    writeNewFiles H π m0 (walk t) =
      ((phase2 ⟨(diffPhase1 H m0 (walk t)).m, (diffPhase1 H m0 (walk t)).count,
          (diffPhase1 H m0 (walk t)).tar⟩ (kontextMiss H π m0 t)).tar,
       (phase2 ⟨(diffPhase1 H m0 (walk t)).m, (diffPhase1 H m0 (walk t)).count,
          (diffPhase1 H m0 (walk t)).tar⟩ (kontextMiss H π m0 t)).count,
       (phase2 ⟨(diffPhase1 H m0 (walk t)).m, (diffPhase1 H m0 (walk t)).count,
          (diffPhase1 H m0 (walk t)).tar⟩ (kontextMiss H π m0 t)).m) := rfl

theorem kontextMiss_pairwise (H : List Nat → Path)
    {π : List (Path × Path) → List (Path × Path)} (hπ : ∀ l, List.Perm (π l) l)
    {m0 : Manifest} (hWF : m0.WF) (t : FsTree) :
    List.Pairwise (fun a b => ple a b ∧ a ≠ b) (kontextMiss H π m0 t) :=
  pairwise_strict_of_sorted_nodup (sorted_MissingOrd _ _ _)
    (nodup_MissingOrd hπ (diffPhase1_WF H hWF (walk t)).1 _)

theorem kontextMiss_clean (H : List Nat → Path)
    {π : List (Path × Path) → List (Path × Path)} (hπ : ∀ l, List.Perm (π l) l)
    {m0 : Manifest} (hWF : m0.WF) (t : FsTree) :
    ∀ q ∈ kontextMiss H π m0 t, normalize q = q := fun q hq =>
  (diffPhase1_WF H hWF (walk t)).2 q ((mem_MissingOrd hπ _ q).mp hq).1

theorem kontextMiss_no_dot (H : List Nat → Path)
    {π : List (Path × Path) → List (Path × Path)} (hπ : ∀ l, List.Perm (π l) l)
    (m0 : Manifest) (t : FsTree) : dotP ∉ kontextMiss H π m0 t := by
  intro h
  have h2 := ((mem_MissingOrd hπ _ dotP).mp h).2
  apply h2
  rw [diffPhase1_allPaths]
  have h3 : dotP ∈ (walk t).map DirEntry.relPath := dot_mem_walkPaths t
  have h4 : normalize dotP = dotP := by decide
  rw [← h4]
  exact List.mem_map_of_mem normalize h3

/-- C2: for every baseline Manifest and walked tree, a whiteout marker
entry for a missing path p is written to the data-layer archive only if
Dir p is still a key of the Manifest after the round's additions (for
walked paths) and removals (for missing paths) have been applied; for a
missing path whose parent directory is itself missing, no whiteout entry
is written.  The first conjunct ties the archive to the whiteout
decision trace; the others constrain the trace. -/
theorem claim_C2_whiteout_containment (H : List Nat → Path)
    (π : List (Path × Path) → List (Path × Path)) (hπ : ∀ l, List.Perm (π l) l)
    (m0 : Manifest) (hWF : m0.WF) (f : FsForest) :
    ((writeNewFiles H π m0 (walk (FsTree.dir f))).1 =
        (diffPhase1 H m0 (walk (FsTree.dir f))).tar ++
          (kontextWhTrace H π m0 (FsTree.dir f)).filterMap
            (fun pb => if pb.2 then some (whEntryFor pb.1) else none)) ∧
    (∀ p ∈ kontextMiss H π m0 (FsTree.dir f),
      (p, true) ∈ kontextWhTrace H π m0 (FsTree.dir f) →
        (writeNewFiles H π m0 (walk (FsTree.dir f))).2.2.Has (Dir p) = true) ∧
    (∀ p ∈ kontextMiss H π m0 (FsTree.dir f),
      Dir p ∈ kontextMiss H π m0 (FsTree.dir f) →
        (p, false) ∈ kontextWhTrace H π m0 (FsTree.dir f)) := by
  have hpw := kontextMiss_pairwise H hπ hWF (FsTree.dir f)
  have hcl := kontextMiss_clean H hπ hWF (FsTree.dir f)
  have hdot := kontextMiss_no_dot H hπ m0 (FsTree.dir f)
  refine ⟨?_, ?_, ?_⟩
  · rw [writeNewFiles_eq_phase2, phase2_eq]
    rfl
  · intro p _ hmem
    rw [writeNewFiles_eq_phase2, phase2_eq]
    exact whDecisions_true_final _ _ p hpw hcl hdot hmem
  · intro p hp hdirp
    exact whDecisions_false_of_parent _ _ p hpw hcl hdot hp (Or.inr hdirp)

theorem claim_C2_whiteout_containment_witness :
    (∀ l : List (Path × Path), List.Perm (id l) l) ∧
    (⟨some [("gone".data, []), ("gone/x".data, "h".data)]⟩ : Manifest).WF ∧
    (((writeNewFiles (fun _ => []) id
          ⟨some [("gone".data, []), ("gone/x".data, "h".data)]⟩
          (walk (FsTree.dir FsForest.nil))).1 =
        (diffPhase1 (fun _ => []) ⟨some [("gone".data, []), ("gone/x".data, "h".data)]⟩
            (walk (FsTree.dir FsForest.nil))).tar ++
          (kontextWhTrace (fun _ => []) id
              ⟨some [("gone".data, []), ("gone/x".data, "h".data)]⟩
              (FsTree.dir FsForest.nil)).filterMap
            (fun pb => if pb.2 then some (whEntryFor pb.1) else none)) ∧
      (∀ p ∈ kontextMiss (fun _ => []) id
          ⟨some [("gone".data, []), ("gone/x".data, "h".data)]⟩ (FsTree.dir FsForest.nil),
        (p, true) ∈ kontextWhTrace (fun _ => []) id
            ⟨some [("gone".data, []), ("gone/x".data, "h".data)]⟩ (FsTree.dir FsForest.nil) →
          (writeNewFiles (fun _ => []) id
              ⟨some [("gone".data, []), ("gone/x".data, "h".data)]⟩
              (walk (FsTree.dir FsForest.nil))).2.2.Has (Dir p) = true) ∧
      (∀ p ∈ kontextMiss (fun _ => []) id
          ⟨some [("gone".data, []), ("gone/x".data, "h".data)]⟩ (FsTree.dir FsForest.nil),
        Dir p ∈ kontextMiss (fun _ => []) id
            ⟨some [("gone".data, []), ("gone/x".data, "h".data)]⟩ (FsTree.dir FsForest.nil) →
          (p, false) ∈ kontextWhTrace (fun _ => []) id
              ⟨some [("gone".data, []), ("gone/x".data, "h".data)]⟩
              (FsTree.dir FsForest.nil))) :=
  ⟨fun l => List.Perm.refl l, by decide,
    claim_C2_whiteout_containment (fun _ => []) id (fun l => List.Perm.refl l)
      _ (by decide) FsForest.nil⟩

/-- C9: because Missing returns its result sorted ascending and every
directory path sorts strictly before the paths nested under it, each
missing directory is removed before any of its descendants is examined
in the whiteout loop (it appears strictly earlier in the missing list),
and for every missing path whose parent directory is also missing the
interleaved parent-presence check fails, so no whiteout marker is
emitted. -/
theorem claim_C9_parent_removed_first (H : List Nat → Path)
    (π : List (Path × Path) → List (Path × Path)) (hπ : ∀ l, List.Perm (π l) l)
    (m0 : Manifest) (hWF : m0.WF) (f : FsForest) :
    List.Sorted ple (kontextMiss H π m0 (FsTree.dir f)) ∧
    (∀ p ∈ kontextMiss H π m0 (FsTree.dir f), ∀ l1 l2,
      kontextMiss H π m0 (FsTree.dir f) = l1 ++ p :: l2 →
      Dir p ∈ kontextMiss H π m0 (FsTree.dir f) → Dir p ≠ p → Dir p ∈ l1) ∧
    (∀ p ∈ kontextMiss H π m0 (FsTree.dir f),
      Dir p ∈ kontextMiss H π m0 (FsTree.dir f) →
        (p, false) ∈ kontextWhTrace H π m0 (FsTree.dir f)) := by
  have hpw := kontextMiss_pairwise H hπ hWF (FsTree.dir f)
  have hcl := kontextMiss_clean H hπ hWF (FsTree.dir f)
  have hdot := kontextMiss_no_dot H hπ m0 (FsTree.dir f)
  refine ⟨sorted_MissingOrd _ _ _, ?_, ?_⟩
  · intro p hp l1 l2 hdec hdirp hdirne
    have hdlt : ple (Dir p) p ∧ Dir p ≠ p := by
      by_cases hsl : '/' ∈ p
      · by_cases hroot : p = ['/']
        · exact absurd (by rw [hroot]; decide) hdirne
        · exact dir_strict_prefix (hcl p hp) hsl hroot
      · exact absurd (by rw [← Dir_noSlash hsl]; exact hdirp : dotP ∈ kontextMiss H π m0 (FsTree.dir f)) hdot
    rw [hdec] at hdirp
    rcases List.mem_append.mp hdirp with h1 | h1
    · exact h1
    · exfalso
      rcases List.mem_cons.mp h1 with h2 | h2
      · exact hdirne h2
      · have hpw2 : List.Pairwise (fun a b => ple a b ∧ a ≠ b) (p :: l2) := by
          rw [hdec] at hpw
          exact hpw.sublist (List.sublist_append_right l1 (p :: l2))
        rw [List.pairwise_cons] at hpw2
        obtain ⟨hple2, hne2⟩ := hpw2.1 (Dir p) h2
        exact hne2 (pleB_antisymm p (Dir p) hple2 hdlt.1)
  · intro p hp hdirp
    exact whDecisions_false_of_parent _ _ p hpw hcl hdot hp (Or.inr hdirp)

theorem claim_C9_parent_removed_first_witness :
    (∀ l : List (Path × Path), List.Perm (id l) l) ∧
    (⟨some [("gone".data, []), ("gone/x".data, "h".data)]⟩ : Manifest).WF ∧
    (List.Sorted ple (kontextMiss (fun _ => []) id
        ⟨some [("gone".data, []), ("gone/x".data, "h".data)]⟩ (FsTree.dir FsForest.nil)) ∧
      (∀ p ∈ kontextMiss (fun _ => []) id
          ⟨some [("gone".data, []), ("gone/x".data, "h".data)]⟩ (FsTree.dir FsForest.nil),
        ∀ l1 l2,
        kontextMiss (fun _ => []) id
            ⟨some [("gone".data, []), ("gone/x".data, "h".data)]⟩ (FsTree.dir FsForest.nil) =
          l1 ++ p :: l2 →
        Dir p ∈ kontextMiss (fun _ => []) id
            ⟨some [("gone".data, []), ("gone/x".data, "h".data)]⟩ (FsTree.dir FsForest.nil) →
        Dir p ≠ p → Dir p ∈ l1) ∧
      (∀ p ∈ kontextMiss (fun _ => []) id
          ⟨some [("gone".data, []), ("gone/x".data, "h".data)]⟩ (FsTree.dir FsForest.nil),
        Dir p ∈ kontextMiss (fun _ => []) id
            ⟨some [("gone".data, []), ("gone/x".data, "h".data)]⟩ (FsTree.dir FsForest.nil) →
          (p, false) ∈ kontextWhTrace (fun _ => []) id
              ⟨some [("gone".data, []), ("gone/x".data, "h".data)]⟩
              (FsTree.dir FsForest.nil))) :=
  ⟨fun l => List.Perm.refl l, by decide,
    claim_C9_parent_removed_first (fun _ => []) id (fun l => List.Perm.refl l)
      _ (by decide) FsForest.nil⟩

/-- C3 as stated is false on the code: the changed count also counts
missing paths whose whiteout entry was suppressed by the parent check.
Concretely, with baseline keys "gone" and "gone/x" and an empty context
directory, the count is 3 but the data layer holds only 2 entries (one
inclusion, the root, plus one whiteout, for "gone"). -/
theorem claim_C3_counterexample :
    (writeNewFiles (fun _ => []) id
        ⟨some [("gone".data, []), ("gone/x".data, "h".data)]⟩
        (walk (FsTree.dir FsForest.nil))).2.1 = 3 ∧
    ((writeNewFiles (fun _ => []) id
        ⟨some [("gone".data, []), ("gone/x".data, "h".data)]⟩
        (walk (FsTree.dir FsForest.nil))).1).length = 2 := by decide

/-- C3 amended: the changed count equals the number of entries included
by the walk phase plus the number of whiteout candidates (missing
paths), counting also the candidates whose marker is suppressed; the
walk-phase count equals the number of walk-phase archive entries; and
whenever the count is zero the program returns before the manifest
layer is built or any push is attempted. -/
theorem claim_C3_amended_count (H : List Nat → Path)
    (π : List (Path × Path) → List (Path × Path)) (m0 : Manifest) (t : FsTree) :
    ((writeNewFiles H π m0 (walk t)).2.1 =
      (diffPhase1 H m0 (walk t)).count + (kontextMiss H π m0 t).length) ∧
    ((diffPhase1 H m0 (walk t)).count = (diffPhase1 H m0 (walk t)).tar.length) ∧
    ((writeNewFiles H π m0 (walk t)).2.1 = 0 → kontextRun H π m0 t = none) ∧
    ((writeNewFiles H π m0 (walk t)).2.1 ≠ 0 →
      kontextRun H π m0 t =
        some ((writeNewFiles H π m0 (walk t)).1,
          writeManifest (writeNewFiles H π m0 (walk t)).2.2)) := by
  refine ⟨?_, ?_, ?_, ?_⟩
  · rw [writeNewFiles_eq_phase2, phase2_eq]
  · have h := foldl_step1_count_tar H (walk t) ⟨[], 0, m0, []⟩
    simp only [List.length_nil] at h
    rw [diffPhase1]
    omega
  · intro h
    rw [kontextRun, if_pos h]
  · intro h
    rw [kontextRun, if_neg h]

theorem claim_C3_amended_count_witness :
    ((writeNewFiles (fun _ => []) id zeroManifest (walk (FsTree.dir FsForest.nil))).2.1 =
      (diffPhase1 (fun _ => []) zeroManifest (walk (FsTree.dir FsForest.nil))).count +
        (kontextMiss (fun _ => []) id zeroManifest (FsTree.dir FsForest.nil)).length) ∧
    ((diffPhase1 (fun _ => []) zeroManifest (walk (FsTree.dir FsForest.nil))).count =
      (diffPhase1 (fun _ => []) zeroManifest (walk (FsTree.dir FsForest.nil))).tar.length) ∧
    ((writeNewFiles (fun _ => []) id zeroManifest (walk (FsTree.dir FsForest.nil))).2.1 = 0 →
      kontextRun (fun _ => []) id zeroManifest (FsTree.dir FsForest.nil) = none) ∧
    ((writeNewFiles (fun _ => []) id zeroManifest (walk (FsTree.dir FsForest.nil))).2.1 ≠ 0 →
      kontextRun (fun _ => []) id zeroManifest (FsTree.dir FsForest.nil) =
        some ((writeNewFiles (fun _ => []) id zeroManifest (walk (FsTree.dir FsForest.nil))).1,
          writeManifest (writeNewFiles (fun _ => []) id zeroManifest
            (walk (FsTree.dir FsForest.nil))).2.2)) :=
  claim_C3_amended_count (fun _ => []) id zeroManifest (FsTree.dir FsForest.nil)

theorem foldl_step1_tar_mono (H : List Nat → Path) :
    ∀ (entries : List DirEntry) (s : DiffState) (te : TarEntry), te ∈ s.tar →
    te ∈ (entries.foldl (step1 H) s).tar := by
  intro entries
  induction entries with
  | nil => intro s te h; exact h
  | cons e rest ih =>
    intro s te h
    rw [List.foldl_cons]
    refine ih (step1 H s e) te ?_
    rw [step1]
    by_cases h1 : s.m.Has e.relPath = true
    · rw [if_pos h1]; exact h
    · rw [if_neg h1]
      by_cases h2 : e.isDir = true
      · rw [if_pos h2]
        exact List.mem_append.mpr (Or.inl h)
      · rw [if_neg h2]
        exact List.mem_append.mpr (Or.inl h)

theorem step1_tar_of_dir (H : List Nat → Path) {s : DiffState} {e : DirEntry}
    (h : s.m.Has e.relPath = false) (hd : e.isDir = true) :
    (step1 H s e).tar = s.tar ++ [⟨Join basePathC e.relPath, TarType.dir, 0o555, 0, []⟩] := by
  rw [step1, if_neg (by rw [h]; simp), if_pos hd]

theorem diffPhase1_has_dot (H : List Nat → Path) (m0 : Manifest) (f : FsForest) :
    (diffPhase1 H m0 (walk (FsTree.dir f))).m.Has dotP = true := by
  rw [diffPhase1,
    show walk (FsTree.dir f) = ⟨dotP, true, []⟩ :: walkForest dotP f from rfl,
    List.foldl_cons]
  apply foldl_step1_has_mono
  rw [step1_m]
  by_cases h : (⟨[], 0, m0, []⟩ : DiffState).m.Has (⟨dotP, true, []⟩ : DirEntry).relPath = true
  · rw [if_pos h]; exact h
  · rw [if_neg h, Manifest.Has_Add, if_pos rfl]

theorem diffPhase1_dot_tar (H : List Nat → Path) {m0 : Manifest} (f : FsForest)
    (h0 : m0.Has dotP = false) :
    (⟨basePathC, TarType.dir, 0o555, 0, []⟩ : TarEntry) ∈
      (diffPhase1 H m0 (walk (FsTree.dir f))).tar := by
  rw [diffPhase1,
    show walk (FsTree.dir f) = ⟨dotP, true, []⟩ :: walkForest dotP f from rfl,
    List.foldl_cons]
  apply foldl_step1_tar_mono
  rw [step1_tar_of_dir H h0 rfl, List.nil_append, join_base_dot]
  exact List.mem_singleton.mpr rfl

/-- C4 as stated is false on the code: the walk does produce an entry
for the root directory itself (relative path "."): it is appended to
the seen paths, added to the Manifest, and a directory archive entry
named by the mount path is written for it. -/
theorem claim_C4_counterexample :
    dotP ∈ (diffPhase1 (fun _ => []) zeroManifest (walk (FsTree.dir FsForest.nil))).allPaths ∧
    (writeNewFiles (fun _ => []) id zeroManifest
        (walk (FsTree.dir FsForest.nil))).2.2.Has dotP = true ∧
    (writeNewFiles (fun _ => []) id zeroManifest (walk (FsTree.dir FsForest.nil))).1 =
      [⟨basePathC, TarType.dir, 0o555, 0, []⟩] := by decide

/-- C4 amended: for every well-formed root directory, the walk produces
an entry for every file and directory strictly under the root AND an
entry for the root itself under the relative path "."; starting from
the clean-slate baseline, the root is added to the seen paths, is added
to the Manifest, and a directory archive entry (named by the mount
path) is written for it. -/
theorem claim_C4_amended_root_walked (H : List Nat → Path)
    (π : List (Path × Path) → List (Path × Path)) (hπ : ∀ l, List.Perm (π l) l)
    (f : FsForest) (hT : treeWFb (FsTree.dir f) = true) :
    (walkPaths (FsTree.dir f) = dotP :: (walkForest dotP f).map DirEntry.relPath) ∧
    (∀ p, p ∈ walkPaths (FsTree.dir f) ↔
      p = dotP ∨ ∃ ch, ch ≠ [] ∧ (subtreeAt (FsTree.dir f) ch).isSome = true ∧
        p = pathOfChain ch) ∧
    dotP ∈ (diffPhase1 H zeroManifest (walk (FsTree.dir f))).allPaths ∧
    (writeNewFiles H π zeroManifest (walk (FsTree.dir f))).2.2.Has dotP = true ∧
    (⟨basePathC, TarType.dir, 0o555, 0, []⟩ : TarEntry) ∈
      (diffPhase1 H zeroManifest (walk (FsTree.dir f))).tar := by
  have hWF0 : zeroManifest.WF := by decide
  refine ⟨rfl, fun p => mem_walkPaths_iff hT p, ?_, ?_, ?_⟩
  · rw [diffPhase1_allPaths]
    exact dot_mem_walkPaths (FsTree.dir f)
  · rw [writeNewFiles_eq_phase2, phase2_eq]
    show (removeList (diffPhase1 H zeroManifest (walk (FsTree.dir f))).m
        (kontextMiss H π zeroManifest (FsTree.dir f))).Has dotP = true
    rw [removeList_Has_preserved _ _ dotP
      (kontextMiss_clean H hπ hWF0 (FsTree.dir f))
      (by
        rw [show normalize dotP = dotP from by decide]
        exact kontextMiss_no_dot H hπ zeroManifest (FsTree.dir f))]
    exact diffPhase1_has_dot H zeroManifest f
  · exact diffPhase1_dot_tar H f rfl

theorem claim_C4_amended_root_walked_witness :
    (∀ l : List (Path × Path), List.Perm (id l) l) ∧
    treeWFb (FsTree.dir FsForest.nil) = true ∧
    ((walkPaths (FsTree.dir FsForest.nil) =
        dotP :: (walkForest dotP FsForest.nil).map DirEntry.relPath) ∧
      (∀ p, p ∈ walkPaths (FsTree.dir FsForest.nil) ↔
        p = dotP ∨ ∃ ch, ch ≠ [] ∧
          (subtreeAt (FsTree.dir FsForest.nil) ch).isSome = true ∧ p = pathOfChain ch) ∧
      dotP ∈ (diffPhase1 (fun _ => []) zeroManifest
        (walk (FsTree.dir FsForest.nil))).allPaths ∧
      (writeNewFiles (fun _ => []) id zeroManifest
        (walk (FsTree.dir FsForest.nil))).2.2.Has dotP = true ∧
      (⟨basePathC, TarType.dir, 0o555, 0, []⟩ : TarEntry) ∈
        (diffPhase1 (fun _ => []) zeroManifest (walk (FsTree.dir FsForest.nil))).tar) :=
  ⟨fun l => List.Perm.refl l, by decide,
    claim_C4_amended_root_walked (fun _ => []) id (fun l => List.Perm.refl l)
      FsForest.nil (by decide)⟩

/-- C5: a walked path already present in the baseline Manifest is
skipped entirely: no data-layer entry is written for it, the changed
count counts only walked paths absent from the baseline, and the
Manifest keeps the baseline digest for that path even when the file's
current content hashes to a different digest. -/
theorem claim_C5_skip_known_path (H : List Nat → Path)
    (π : List (Path × Path) → List (Path × Path)) (hπ : ∀ l, List.Perm (π l) l)
    (m0 : Manifest) (hWF : m0.WF) (f : FsForest) (hT : treeWFb (FsTree.dir f) = true)
    (p : Path) (hp : p ∈ walkPaths (FsTree.dir f)) (hhas : m0.Has p = true)
    (e : DirEntry) (he : e ∈ walk (FsTree.dir f)) (herel : e.relPath = p)
    (d_old : Path) (hold : m0.get (normalize p) = some d_old)
    (hdiff : valueOf H e ≠ d_old) :
    ((writeNewFiles H π m0 (walk (FsTree.dir f))).2.2.get (normalize p) = some d_old) ∧
    (∀ te ∈ (diffPhase1 H m0 (walk (FsTree.dir f))).tar, te.name ≠ Join basePathC p) ∧
    ((diffPhase1 H m0 (walk (FsTree.dir f))).count =
      ((walk (FsTree.dir f)).filter (fun e2 => !m0.Has e2.relPath)).length) ∧
    (p ∉ ((walk (FsTree.dir f)).filter
        (fun e2 => !m0.Has e2.relPath)).map DirEntry.relPath) := by
  have hclean : ∀ e2 ∈ walk (FsTree.dir f), normalize e2.relPath = e2.relPath :=
    fun e2 he2 => walkPaths_clean hT e2.relPath (List.mem_map_of_mem DirEntry.relPath he2)
  refine ⟨?_, ?_, ?_, ?_⟩
  · rw [writeNewFiles_eq_phase2, phase2_eq]
    show (removeList (diffPhase1 H m0 (walk (FsTree.dir f))).m
        (kontextMiss H π m0 (FsTree.dir f))).get (normalize p) = some d_old
    rw [removeList_get_preserved _ _ p (kontextMiss_clean H hπ hWF (FsTree.dir f))
      (by
        intro hcon
        have h2 := ((mem_MissingOrd hπ _ (normalize p)).mp hcon).2
        apply h2
        rw [diffPhase1_allPaths]
        exact List.mem_map_of_mem normalize hp)]
    have h3 := foldl_step1_get_preserved H (walk (FsTree.dir f)) ⟨[], 0, m0, []⟩ p hhas
    rw [diffPhase1]
    rw [h3]
    exact hold
  · refine foldl_step1_no_entry H p (walk (FsTree.dir f)) ⟨[], 0, m0, []⟩ hhas ?_
      (by intro te hte; simp at hte)
    intro e2 he2 heq
    exact join_base_inj_walk hT (List.mem_map_of_mem DirEntry.relPath he2) hp heq
  · have h := foldl_step1_count_filter H (walk (FsTree.dir f)) ⟨[], 0, m0, []⟩ hclean
      (walkPaths_nodup hT)
    rw [diffPhase1, h]
    simp
  · intro hmem
    obtain ⟨e2, he2, he2rel⟩ := List.mem_map.mp hmem
    rw [List.mem_filter] at he2
    have h2 : m0.Has e2.relPath = false := by
      have := he2.2
      cases h3 : m0.Has e2.relPath with
      | false => rfl
      | true => rw [h3] at this; simp at this
    rw [he2rel, hhas] at h2
    exact Bool.noConfusion h2

theorem claim_C5_skip_known_path_witness :
    (∀ l : List (Path × Path), List.Perm (id l) l) ∧
    (⟨some [("a".data, "h1".data)]⟩ : Manifest).WF ∧
    treeWFb (FsTree.dir (FsForest.cons "a".data (FsTree.file [1]) FsForest.nil)) = true ∧
    "a".data ∈ walkPaths (FsTree.dir (FsForest.cons "a".data (FsTree.file [1]) FsForest.nil)) ∧
    (⟨some [("a".data, "h1".data)]⟩ : Manifest).Has "a".data = true ∧
    (⟨"a".data, false, [1]⟩ : DirEntry) ∈
      walk (FsTree.dir (FsForest.cons "a".data (FsTree.file [1]) FsForest.nil)) ∧
    valueOf (fun _ => "h2".data) (⟨"a".data, false, [1]⟩ : DirEntry) ≠ "h1".data ∧
    (((writeNewFiles (fun _ => "h2".data) id ⟨some [("a".data, "h1".data)]⟩
          (walk (FsTree.dir (FsForest.cons "a".data (FsTree.file [1])
            FsForest.nil)))).2.2.get (normalize "a".data) = some "h1".data) ∧
      (∀ te ∈ (diffPhase1 (fun _ => "h2".data) ⟨some [("a".data, "h1".data)]⟩
          (walk (FsTree.dir (FsForest.cons "a".data (FsTree.file [1]) FsForest.nil)))).tar,
        te.name ≠ Join basePathC "a".data) ∧
      ((diffPhase1 (fun _ => "h2".data) ⟨some [("a".data, "h1".data)]⟩
          (walk (FsTree.dir (FsForest.cons "a".data (FsTree.file [1])
            FsForest.nil)))).count =
        ((walk (FsTree.dir (FsForest.cons "a".data (FsTree.file [1])
            FsForest.nil))).filter
          (fun e2 => !(⟨some [("a".data, "h1".data)]⟩ : Manifest).Has e2.relPath)).length) ∧
      ("a".data ∉ ((walk (FsTree.dir (FsForest.cons "a".data (FsTree.file [1])
          FsForest.nil))).filter
        (fun e2 => !(⟨some [("a".data, "h1".data)]⟩ : Manifest).Has e2.relPath)).map
          DirEntry.relPath)) :=
  ⟨fun l => List.Perm.refl l, by decide, by decide, by decide, by decide, by decide,
    by decide,
    claim_C5_skip_known_path (fun _ => "h2".data) id (fun l => List.Perm.refl l)
      ⟨some [("a".data, "h1".data)]⟩ (by decide)
      (FsForest.cons "a".data (FsTree.file [1]) FsForest.nil) (by decide)
      "a".data (by decide) (by decide)
      ⟨"a".data, false, [1]⟩ (by decide) rfl
      "h1".data (by decide) (by decide)⟩

theorem writeNewFiles_pi_irrel (H : List Nat → Path)
    {π : List (Path × Path) → List (Path × Path)} (hπ : ∀ l, List.Perm (π l) l)
    (m0 : Manifest) (entries : List DirEntry) :
    writeNewFiles H π m0 entries = writeNewFiles H id m0 entries := by
  simp only [writeNewFiles]
  rw [MissingOrd_eq_Missing hπ]
  rfl

/-- C6: for a fixed directory tree and empty baseline, two runs of the
layer synthesis pipeline produce identical data layers and identical
manifest layers, whatever map iteration orders the two runs see: the
output depends only on the tree. -/
theorem claim_C6_determinism (H : List Nat → Path) (t : FsTree)
    (π₁ π₂ : List (Path × Path) → List (Path × Path))
    (h1 : ∀ l, List.Perm (π₁ l) l) (h2 : ∀ l, List.Perm (π₂ l) l) :
    writeNewFiles H π₁ zeroManifest (walk t) = writeNewFiles H π₂ zeroManifest (walk t) ∧
    kontextRun H π₁ zeroManifest t = kontextRun H π₂ zeroManifest t := by
  have e1 := writeNewFiles_pi_irrel H h1 zeroManifest (walk t)
  have e2 := writeNewFiles_pi_irrel H h2 zeroManifest (walk t)
  refine ⟨e1.trans e2.symm, ?_⟩
  rw [kontextRun, kontextRun, e1, e2]

theorem claim_C6_determinism_witness :
    (∀ l : List (Path × Path), List.Perm l.reverse l) ∧
    (∀ l : List (Path × Path), List.Perm (id l) l) ∧
    (writeNewFiles (fun _ => "h".data) List.reverse zeroManifest
        (walk (FsTree.dir (FsForest.cons "a".data (FsTree.file [1]) FsForest.nil))) =
      writeNewFiles (fun _ => "h".data) id zeroManifest
        (walk (FsTree.dir (FsForest.cons "a".data (FsTree.file [1]) FsForest.nil))) ∧
      kontextRun (fun _ => "h".data) List.reverse zeroManifest
        (FsTree.dir (FsForest.cons "a".data (FsTree.file [1]) FsForest.nil)) =
      kontextRun (fun _ => "h".data) id zeroManifest
        (FsTree.dir (FsForest.cons "a".data (FsTree.file [1]) FsForest.nil))) :=
  ⟨fun l => l.reverse_perm, fun l => List.Perm.refl l,
    claim_C6_determinism (fun _ => "h".data)
      (FsTree.dir (FsForest.cons "a".data (FsTree.file [1]) FsForest.nil))
      List.reverse id (fun l => l.reverse_perm) (fun l => List.Perm.refl l)⟩

theorem lookupKV_map_fun (g : Path → Path) :
    ∀ (ks : List Path) (k : Path),
    lookupKV (ks.map (fun x => (x, g x))) k = if k ∈ ks then some (g k) else none := by
  intro ks
  induction ks with
  | nil => intro k; simp [lookupKV]
  | cons a rest ih =>
    intro k
    rw [List.map_cons, lookupKV]
    by_cases h : a = k
    · rw [if_pos h, h, if_pos (List.mem_cons_self k rest)]
    · rw [if_neg h, ih k]
      by_cases hk : k ∈ rest
      · rw [if_pos hk, if_pos (List.mem_cons_of_mem a hk)]
      · rw [if_neg hk, if_neg (by
          intro hc
          rcases List.mem_cons.mp hc with hc | hc
          · exact h hc.symm
          · exact hk hc)]

theorem foldl_insertKV_nodup :
    ∀ (l acc : List (Path × Path)), (((acc ++ l).map Prod.fst)).Nodup →
    l.foldl (fun fs kv => insertKV fs kv.1 kv.2) acc = acc ++ l := by
  intro l
  induction l with
  | nil => intro acc _; rw [List.foldl_nil, List.append_nil]
  | cons kv rest ih =>
    intro acc hnd
    rw [List.foldl_cons]
    have hnd2 : (((acc ++ [kv]) ++ rest).map Prod.fst).Nodup := by
      rw [List.append_assoc, List.singleton_append]; exact hnd
    have hdisj : kv.1 ∉ acc.map Prod.fst := by
      intro hmem
      rw [List.map_append] at hnd
      have := (List.nodup_append.mp hnd).2.2
      exact this hmem (by rw [List.map_cons]; exact List.mem_cons_self _ _)
    have hins : insertKV acc kv.1 kv.2 = acc ++ [kv] := by
      rw [insertKV]
      have hfilt : acc.filter (fun x => !decide (x.1 = kv.1)) = acc := by
        refine List.filter_eq_self.mpr ?_
        intro x hx
        simp only [Bool.not_eq_true', decide_eq_false_iff_not]
        intro hc
        exact hdisj (hc ▸ List.mem_map_of_mem Prod.fst hx)
      rw [hfilt]
    rw [hins, ih (acc ++ [kv]) hnd2, List.append_assoc, List.singleton_append]

/-- C7: serializing a Manifest to JSON and decoding it back (with no
mutation in between) yields an identity-equal mapping: the same digest
read for every key, and the same set of keys.  The keys of the Go map
are necessarily distinct. -/
theorem claim_C7_json_roundtrip (m : Manifest) (hnd : m.keys.Nodup) :
    (∀ k, (jsonDecodeManifest (jsonEncodeManifest m)).get k = m.get k) ∧
    (∀ k, k ∈ (jsonDecodeManifest (jsonEncodeManifest m)).keys ↔ k ∈ m.keys) := by
  by_cases hmk : m.keys = []
  · have hent : m.entries = [] := List.map_eq_nil_iff.mp hmk
    have henc : jsonEncodeManifest m = [] := by
      rw [jsonEncodeManifest, hmk]; rfl
    rw [henc, jsonDecodeManifest, if_pos rfl]
    constructor
    · intro k
      show none = m.get k
      rw [Manifest.get, hent]; rfl
    · intro k
      rw [hmk]
      exact Iff.rfl
  · have hsperm : List.Perm (List.insertionSort ple m.keys) m.keys :=
      List.perm_insertionSort ple m.keys
    have hsnd : (List.insertionSort ple m.keys).Nodup := hsperm.nodup_iff.mpr hnd
    have hlkeys : (jsonEncodeManifest m).map Prod.fst = List.insertionSort ple m.keys := by
      rw [jsonEncodeManifest, List.map_map]
      exact List.map_id' _
    have hlne : jsonEncodeManifest m ≠ [] := by
      intro hc
      have h0 : List.insertionSort ple m.keys = [] := by rw [← hlkeys, hc]; rfl
      have h1 := hsperm.symm
      rw [h0] at h1
      exact hmk h1.eq_nil
    have hdec : jsonDecodeManifest (jsonEncodeManifest m) = ⟨some (jsonEncodeManifest m)⟩ := by
      rw [jsonDecodeManifest, if_neg hlne,
        foldl_insertKV_nodup (jsonEncodeManifest m) [] (by
          rw [List.nil_append, hlkeys]; exact hsnd)]
      rfl
    constructor
    · intro k
      rw [hdec]
      show lookupKV (jsonEncodeManifest m) k = m.get k
      rw [jsonEncodeManifest, lookupKV_map_fun]
      by_cases hk : k ∈ List.insertionSort ple m.keys
      · rw [if_pos hk]
        have hk2 : k ∈ m.keys := hsperm.mem_iff.mp hk
        obtain ⟨v, hv⟩ := Option.isSome_iff_exists.mp ((m.get_isSome_iff k).mpr hk2)
        rw [hv]
        rfl
      · rw [if_neg hk]
        have hk2 : k ∉ m.keys := fun hc => hk (hsperm.mem_iff.mpr hc)
        cases hg : m.get k with
        | none => rfl
        | some v =>
          exact absurd ((m.get_isSome_iff k).mp (by rw [hg]; rfl)) hk2
    · intro k
      rw [hdec]
      show k ∈ (jsonEncodeManifest m).map Prod.fst ↔ k ∈ m.keys
      rw [hlkeys]
      exact hsperm.mem_iff

theorem claim_C7_json_roundtrip_witness :
    (⟨some [("b".data, "h2".data), ("a".data, "h1".data)]⟩ : Manifest).keys.Nodup ∧
    ((∀ k, (jsonDecodeManifest (jsonEncodeManifest
        ⟨some [("b".data, "h2".data), ("a".data, "h1".data)]⟩)).get k =
      (⟨some [("b".data, "h2".data), ("a".data, "h1".data)]⟩ : Manifest).get k) ∧
    (∀ k, k ∈ (jsonDecodeManifest (jsonEncodeManifest
        ⟨some [("b".data, "h2".data), ("a".data, "h1".data)]⟩)).keys ↔
      k ∈ (⟨some [("b".data, "h2".data), ("a".data, "h1".data)]⟩ : Manifest).keys)) :=
  ⟨by decide, claim_C7_json_roundtrip _ (by decide)⟩

theorem xsubtreeAt_nil (t : XTree) : xsubtreeAt t [] = some t := by
  cases t <;> rfl

theorem xsubtreeAt_xfile (mode : Nat) (c : List Nat) (n : Path) (ch : List Path) :
    xsubtreeAt (XTree.xfile mode c) (n :: ch) = none := rfl

theorem xsubtreeAt_xirr (mode : Nat) (n : Path) (ch : List Path) :
    xsubtreeAt (XTree.xirr mode) (n :: ch) = none := rfl

theorem xlookupForest_cons (n : Path) (t : XTree) (rest : XForest) (k : Path) :
    xlookupForest (XForest.cons n t rest) k =
      if n = k then some t else xlookupForest rest k := rfl

theorem xtreeWFb_xdir (mode : Nat) (f : XForest) :
    xtreeWFb (XTree.xdir mode f) = xforestWFb f := rfl

theorem xforestWFb_cons {n : Path} {t : XTree} {rest : XForest}
    (h : xforestWFb (XForest.cons n t rest) = true) :
    validName n ∧ xtreeWFb t = true ∧ xforestWFb rest = true ∧ xltAllB n rest = true := by
  have h2 : (decide (validName n) && xtreeWFb t && xforestWFb rest && xltAllB n rest)
      = true := h
  simp only [Bool.and_eq_true, decide_eq_true_eq] at h2
  exact ⟨h2.1.1.1, h2.1.1.2, h2.1.2, h2.2⟩

theorem xlookupForest_lt {n : Path} : ∀ {rest : XForest} {k : Path},
    xltAllB n rest = true → (xlookupForest rest k).isSome = true → pltB n k = true
  | .nil, k, _, h2 => by simp [xlookupForest] at h2
  | .cons n2 t2 r2, k, h1, h2 => by
    have h3 : (pltB n n2 && xltAllB n r2) = true := h1
    simp only [Bool.and_eq_true] at h3
    rw [xlookupForest_cons] at h2
    by_cases hk : n2 = k
    · rw [← hk]; exact h3.1
    · rw [if_neg hk] at h2
      exact xlookupForest_lt h3.2 h2

theorem xlookupForest_valid_WF : ∀ {f : XForest} {k : Path} {c : XTree},
    xforestWFb f = true → xlookupForest f k = some c → validName k ∧ xtreeWFb c = true
  | .nil, k, c, _, hl => by simp [xlookupForest] at hl
  | .cons n t rest, k, c, hWF, hl => by
    obtain ⟨hvn, hWFt, hWFr, _⟩ := xforestWFb_cons hWF
    rw [xlookupForest_cons] at hl
    by_cases hk : n = k
    · rw [if_pos hk] at hl
      injection hl with hl2
      exact ⟨hk ▸ hvn, hl2 ▸ hWFt⟩
    · rw [if_neg hk] at hl
      exact xlookupForest_valid_WF hWFr hl

theorem xsubtree_chain_valid : ∀ (ch : List Path) (t : XTree), xtreeWFb t = true →
    (xsubtreeAt t ch).isSome = true → ∀ n ∈ ch, validName n
  | [], _, _, _ => by intro n hn; simp at hn
  | k :: ch2, t, hWF, hsub => by
    cases t with
    | xfile mode c =>
      rw [xsubtreeAt_xfile] at hsub
      simp at hsub
    | xirr mode =>
      rw [xsubtreeAt_xirr] at hsub
      simp at hsub
    | xdir mode f =>
      have e : xsubtreeAt (XTree.xdir mode f) (k :: ch2) =
          (match xlookupForest f k with
            | none => none
            | some c => xsubtreeAt c ch2) := rfl
      cases hl : xlookupForest f k with
      | none => rw [e, hl] at hsub; simp at hsub
      | some c =>
        rw [e, hl] at hsub
        have hv := xlookupForest_valid_WF
          (by rw [← xtreeWFb_xdir mode f]; exact hWF) hl
        intro n hn
        rcases List.mem_cons.mp hn with hn1 | hn1
        · rw [hn1]; exact hv.1
        · exact xsubtree_chain_valid ch2 c hv.2 hsub n hn1

theorem targetPathC_comps :
    targetPathC = '/' :: intercalateSlash ["workspace".data] := by decide

theorem join_target_validChain {ch : List Path} (hne : ch ≠ [])
    (hv : ∀ n ∈ ch, validName n) :
    Join targetPathC (pathOfChain ch) = targetPathC ++ '/' :: pathOfChain ch := by
  have hb : targetPathC ≠ [] := by decide
  have hc : pathOfChain ch ≠ [] := pathOfChain_ne_nil hne hv
  rw [Join, if_neg (by intro h; exact hb h.1), if_neg hb, if_neg hc]
  have e : targetPathC ++ '/' :: pathOfChain ch =
      '/' :: intercalateSlash (["workspace".data] ++ ch) := by
    rw [inter_append _ ch (by simp) hne, targetPathC_comps]
    rfl
  rw [e]
  refine clean_of_compsOK_true ⟨by simp, ?_, ?_⟩
  · intro g hg
    have hg2 := mem_of_mem_dropWhile hg
    rcases List.mem_append.mp hg2 with h1 | h1
    · have h1b : g = "workspace".data := by simpa using h1
      rw [h1b]; decide
    · exact validName_plain (hv g h1)
  · intro _ g hg
    rcases List.mem_append.mp hg with h1 | h1
    · have h1b : g = "workspace".data := by simpa using h1
      rw [h1b]; decide
    · exact (hv g h1).2.2.2

mutual

theorem mem_extractTree_iff : ∀ (t : XTree) (c0 : List Path), c0 ≠ [] →
    pathOfChain c0 ≠ [] → xtreeWFb t = true → ∀ a : FsAction,
    (a ∈ extractTree (pathOfChain c0) t ↔
      ∃ ch sub, xsubtreeAt t ch = some sub ∧
        a ∈ xlocalActs (pathOfChain (c0 ++ ch)) sub)
  | .xfile mode c, c0, _, _, _, a => by
    constructor
    · intro ha
      refine ⟨[], .xfile mode c, xsubtreeAt_nil _, ?_⟩
      rw [List.append_nil]
      exact ha
    · rintro ⟨ch, sub, hsub, ha⟩
      cases ch with
      | nil =>
        rw [xsubtreeAt_nil] at hsub
        injection hsub with hs
        rw [List.append_nil] at ha
        rw [← hs] at ha
        exact ha
      | cons n ch2 =>
        rw [xsubtreeAt_xfile] at hsub
        exact Option.noConfusion hsub
  | .xirr mode, c0, _, _, _, a => by
    constructor
    · intro ha
      exact absurd ha (List.not_mem_nil a)
    · rintro ⟨ch, sub, hsub, ha⟩
      cases ch with
      | nil =>
        rw [xsubtreeAt_nil] at hsub
        injection hsub with hs
        rw [← hs] at ha
        exact absurd ha (List.not_mem_nil a)
      | cons n ch2 =>
        rw [xsubtreeAt_xirr] at hsub
        exact Option.noConfusion hsub
  | .xdir mode f, c0, hc0, hpne, hWF, a => by
    simp only [extractTree, List.mem_cons]
    rw [mem_extractChildren_iff f c0 hc0 hpne
      (by rw [← xtreeWFb_xdir mode f]; exact hWF) a]
    constructor
    · rintro (ha | ⟨ch, sub, hchne, hsub, ha⟩)
      · refine ⟨[], .xdir mode f, xsubtreeAt_nil _, ?_⟩
        rw [List.append_nil, ha]
        exact List.mem_cons_self _ _
      · refine ⟨ch, sub, ?_, ha⟩
        cases ch with
        | nil => exact absurd rfl hchne
        | cons k ch2 => exact hsub
    · rintro ⟨ch, sub, hsub, ha⟩
      cases ch with
      | nil =>
        rw [xsubtreeAt_nil] at hsub
        injection hsub with hs
        rw [List.append_nil] at ha
        rw [← hs] at ha
        left
        simp only [xlocalActs, List.mem_singleton] at ha
        exact ha
      | cons k ch2 => exact Or.inr ⟨k :: ch2, sub, by simp, hsub, ha⟩

theorem mem_extractChildren_iff : ∀ (f : XForest) (c0 : List Path), c0 ≠ [] →
    pathOfChain c0 ≠ [] → xforestWFb f = true → ∀ a : FsAction,
    (a ∈ extractChildren (pathOfChain c0) f ↔
      ∃ ch sub, ch ≠ [] ∧ xsubtreeAt (XTree.xdir 0 f) ch = some sub ∧
        a ∈ xlocalActs (pathOfChain (c0 ++ ch)) sub)
  | .nil, c0, _, _, _, a => by
    constructor
    · intro ha
      exact absurd ha (List.not_mem_nil a)
    · rintro ⟨ch, sub, hchne, hsub, _⟩
      cases ch with
      | nil => exact absurd rfl hchne
      | cons n ch2 =>
        have e : xsubtreeAt (XTree.xdir 0 XForest.nil) (n :: ch2) = none := rfl
        rw [e] at hsub
        exact Option.noConfusion hsub
  | .cons n t rest, c0, hc0, hpne, hWF, a => by
    obtain ⟨hvn, hWFt, hWFr, hlt⟩ := xforestWFb_cons hWF
    have hchild : childRelX (pathOfChain c0) n = pathOfChain (c0 ++ [n]) := by
      rw [childRelX, if_neg hpne, pathOfChain_append_single hc0 n]
    simp only [extractChildren, List.mem_append]
    rw [hchild,
      mem_extractTree_iff t (c0 ++ [n]) (by simp)
        (by rw [pathOfChain_append_single hc0 n]; simp) hWFt a,
      mem_extractChildren_iff rest c0 hc0 hpne hWFr a]
    constructor
    · rintro (⟨ch, sub, hsub, ha⟩ | ⟨ch, sub, hchne, hsub, ha⟩)
      · refine ⟨n :: ch, sub, by simp, ?_, ?_⟩
        · have e : xsubtreeAt (XTree.xdir 0 (XForest.cons n t rest)) (n :: ch) =
              xsubtreeAt t ch := by
            show (match xlookupForest (XForest.cons n t rest) n with
              | none => none
              | some c => xsubtreeAt c ch) = xsubtreeAt t ch
            rw [xlookupForest_cons, if_pos rfl]
          rw [e]
          exact hsub
        · rw [show c0 ++ n :: ch = (c0 ++ [n]) ++ ch from by rw [List.append_cons]]
          exact ha
      · cases ch with
        | nil => exact absurd rfl hchne
        | cons k ch2 =>
          have hk : (xlookupForest rest k).isSome = true := by
            have e : xsubtreeAt (XTree.xdir 0 rest) (k :: ch2) =
                (match xlookupForest rest k with
                  | none => none
                  | some c => xsubtreeAt c ch2) := rfl
            rw [e] at hsub
            cases hl : xlookupForest rest k with
            | none => rw [hl] at hsub; exact Option.noConfusion hsub
            | some c => rfl
          have hnk : n ≠ k := pltB_ne (xlookupForest_lt hlt hk)
          refine ⟨k :: ch2, sub, by simp, ?_, ha⟩
          have e : xsubtreeAt (XTree.xdir 0 (XForest.cons n t rest)) (k :: ch2) =
              xsubtreeAt (XTree.xdir 0 rest) (k :: ch2) := by
            show (match xlookupForest (XForest.cons n t rest) k with
              | none => none
              | some c => xsubtreeAt c ch2) = _
            rw [xlookupForest_cons, if_neg hnk]
            rfl
          rw [e]
          exact hsub
    · rintro ⟨ch, sub, hchne, hsub, ha⟩
      cases ch with
      | nil => exact absurd rfl hchne
      | cons k ch2 =>
        have e : xsubtreeAt (XTree.xdir 0 (XForest.cons n t rest)) (k :: ch2) =
            (match (if n = k then some t else xlookupForest rest k) with
              | none => none
              | some c => xsubtreeAt c ch2) := by
          show (match xlookupForest (XForest.cons n t rest) k with
            | none => none
            | some c => xsubtreeAt c ch2) = _
          rw [xlookupForest_cons]
        by_cases hk : n = k
        · left
          rw [e, if_pos hk] at hsub
          refine ⟨ch2, sub, hsub, ?_⟩
          rw [List.append_cons, ← hk] at ha
          exact ha
        · right
          refine ⟨k :: ch2, sub, by simp, ?_, ha⟩
          rw [e, if_neg hk] at hsub
          have e2 : xsubtreeAt (XTree.xdir 0 rest) (k :: ch2) =
              (match xlookupForest rest k with
                | none => none
                | some c => xsubtreeAt c ch2) := rfl
          rw [e2]
          exact hsub

end

theorem mem_extract_root_iff : ∀ (f : XForest), xforestWFb f = true → ∀ a : FsAction,
    (a ∈ extractChildren [] f ↔
      ∃ ch sub, ch ≠ [] ∧ xsubtreeAt (XTree.xdir 0 f) ch = some sub ∧
        a ∈ xlocalActs (pathOfChain ch) sub)
  | .nil, _, a => by
    constructor
    · intro ha
      exact absurd ha (List.not_mem_nil a)
    · rintro ⟨ch, sub, hchne, hsub, _⟩
      cases ch with
      | nil => exact absurd rfl hchne
      | cons n ch2 =>
        have e : xsubtreeAt (XTree.xdir 0 XForest.nil) (n :: ch2) = none := rfl
        rw [e] at hsub
        exact Option.noConfusion hsub
  | .cons n t rest, hWF, a => by
    obtain ⟨hvn, hWFt, hWFr, hlt⟩ := xforestWFb_cons hWF
    have hchild : childRelX [] n = pathOfChain [n] := by
      rw [childRelX, if_pos rfl]
      rfl
    simp only [extractChildren, List.mem_append]
    rw [hchild,
      mem_extractTree_iff t [n] (by simp)
        (by rw [pathOfChain_single]; exact hvn.1) hWFt a,
      mem_extract_root_iff rest hWFr a]
    constructor
    · rintro (⟨ch, sub, hsub, ha⟩ | ⟨ch, sub, hchne, hsub, ha⟩)
      · refine ⟨n :: ch, sub, by simp, ?_, ?_⟩
        · have e : xsubtreeAt (XTree.xdir 0 (XForest.cons n t rest)) (n :: ch) =
              xsubtreeAt t ch := by
            show (match xlookupForest (XForest.cons n t rest) n with
              | none => none
              | some c => xsubtreeAt c ch) = xsubtreeAt t ch
            rw [xlookupForest_cons, if_pos rfl]
          rw [e]
          exact hsub
        · exact ha
      · cases ch with
        | nil => exact absurd rfl hchne
        | cons k ch2 =>
          have hk : (xlookupForest rest k).isSome = true := by
            have e : xsubtreeAt (XTree.xdir 0 rest) (k :: ch2) =
                (match xlookupForest rest k with
                  | none => none
                  | some c => xsubtreeAt c ch2) := rfl
            rw [e] at hsub
            cases hl : xlookupForest rest k with
            | none => rw [hl] at hsub; exact Option.noConfusion hsub
            | some c => rfl
          have hnk : n ≠ k := pltB_ne (xlookupForest_lt hlt hk)
          refine ⟨k :: ch2, sub, by simp, ?_, ha⟩
          have e : xsubtreeAt (XTree.xdir 0 (XForest.cons n t rest)) (k :: ch2) =
              xsubtreeAt (XTree.xdir 0 rest) (k :: ch2) := by
            show (match xlookupForest (XForest.cons n t rest) k with
              | none => none
              | some c => xsubtreeAt c ch2) = _
            rw [xlookupForest_cons, if_neg hnk]
            rfl
          rw [e]
          exact hsub
    · rintro ⟨ch, sub, hchne, hsub, ha⟩
      cases ch with
      | nil => exact absurd rfl hchne
      | cons k ch2 =>
        have e : xsubtreeAt (XTree.xdir 0 (XForest.cons n t rest)) (k :: ch2) =
            (match (if n = k then some t else xlookupForest rest k) with
              | none => none
              | some c => xsubtreeAt c ch2) := by
          show (match xlookupForest (XForest.cons n t rest) k with
            | none => none
            | some c => xsubtreeAt c ch2) = _
          rw [xlookupForest_cons]
        by_cases hk : n = k
        · left
          rw [e, if_pos hk] at hsub
          refine ⟨ch2, sub, hsub, ?_⟩
          rw [← hk] at ha
          exact ha
        · right
          refine ⟨k :: ch2, sub, by simp, ?_, ha⟩
          rw [e, if_neg hk] at hsub
          have e2 : xsubtreeAt (XTree.xdir 0 rest) (k :: ch2) =
              (match xlookupForest rest k with
                | none => none
                | some c => xsubtreeAt c ch2) := rfl
          rw [e2]
          exact hsub

/-- C8: for every well-formed tree rooted at the mount path, the
extractor copies each regular file under the mount path to the
corresponding relative path under the target workspace path with the
source entry's mode bits, first creating the file's parent directory;
each directory is re-created under the target with its source mode
bits; and nothing is copied from the source location of an entry that
is neither a directory nor a regular file. -/
theorem claim_C8_extractor_copies (f : XForest) (hWF : xforestWFb f = true)
    (ch : List Path) (hne : ch ≠ []) :
    (∀ mode c, xsubtreeAt (XTree.xdir 0 f) ch = some (XTree.xfile mode c) →
      FsAction.mkdirAll (Dir (Join targetPathC (pathOfChain ch))) 0o444 ∈ extractor f ∧
      FsAction.copyFile (Join basePathC (pathOfChain ch))
        (Join targetPathC (pathOfChain ch)) mode c ∈ extractor f) ∧
    (∀ mode g, xsubtreeAt (XTree.xdir 0 f) ch = some (XTree.xdir mode g) →
      FsAction.mkdirAll (Join targetPathC (pathOfChain ch)) mode ∈ extractor f) ∧
    (∀ mode, xsubtreeAt (XTree.xdir 0 f) ch = some (XTree.xirr mode) →
      ∀ dest mode2 c2,
        FsAction.copyFile (Join basePathC (pathOfChain ch)) dest mode2 c2 ∉
          extractor f) := by
  have hroot : xtreeWFb (XTree.xdir 0 f) = true := by
    rw [xtreeWFb_xdir]; exact hWF
  refine ⟨?_, ?_, ?_⟩
  · intro mode c hsub
    constructor
    · exact (mem_extract_root_iff f hWF _).mpr
        ⟨ch, XTree.xfile mode c, hne, hsub, List.mem_cons_self _ _⟩
    · exact (mem_extract_root_iff f hWF _).mpr
        ⟨ch, XTree.xfile mode c, hne, hsub,
          List.mem_cons_of_mem _ (List.mem_cons_self _ _)⟩
  · intro mode g hsub
    exact (mem_extract_root_iff f hWF _).mpr
      ⟨ch, XTree.xdir mode g, hne, hsub, List.mem_cons_self _ _⟩
  · intro mode hsub dest mode2 c2 hmem
    obtain ⟨ch2, sub2, hch2ne, hsub2, ha2⟩ := (mem_extract_root_iff f hWF _).mp hmem
    cases sub2 with
    | xdir m2 g2 => simp [xlocalActs] at ha2
    | xirr m2 => simp [xlocalActs] at ha2
    | xfile m2 c3 =>
      simp only [xlocalActs, List.mem_cons, List.not_mem_nil, or_false] at ha2
      rcases ha2 with h1 | h1
      · exact FsAction.noConfusion h1
      · injection h1 with hsrc hrest
        have hv1 : ∀ n ∈ ch, validName n :=
          xsubtree_chain_valid ch (XTree.xdir 0 f) hroot (by rw [hsub]; rfl)
        have hv2 : ∀ n ∈ ch2, validName n :=
          xsubtree_chain_valid ch2 (XTree.xdir 0 f) hroot (by rw [hsub2]; rfl)
        rw [join_base_validChain hne hv1, join_base_validChain hch2ne hv2] at hsrc
        have h3 := List.append_cancel_left hsrc
        injection h3 with _ h4
        have h5 : ch = ch2 := pathOfChain_inj hne hch2ne
          (fun n hn => (hv1 n hn).2.1) (fun n hn => (hv2 n hn).2.1) h4
        rw [← h5, hsub] at hsub2
        injection hsub2 with h6
        exact XTree.noConfusion h6

theorem claim_C8_extractor_copies_witness :
    xforestWFb (XForest.cons "a".data
        (XTree.xdir 0o755 (XForest.cons "f".data (XTree.xfile 0o644 [7]) XForest.nil))
        (XForest.cons "s".data (XTree.xirr 0o777) XForest.nil)) = true ∧
    (["a".data, "f".data] : List Path) ≠ [] ∧
    ((∀ mode c, xsubtreeAt (XTree.xdir 0 (XForest.cons "a".data
          (XTree.xdir 0o755 (XForest.cons "f".data (XTree.xfile 0o644 [7]) XForest.nil))
          (XForest.cons "s".data (XTree.xirr 0o777) XForest.nil)))
          ["a".data, "f".data] = some (XTree.xfile mode c) →
        FsAction.mkdirAll (Dir (Join targetPathC (pathOfChain ["a".data, "f".data])))
            0o444 ∈ extractor (XForest.cons "a".data
          (XTree.xdir 0o755 (XForest.cons "f".data (XTree.xfile 0o644 [7]) XForest.nil))
          (XForest.cons "s".data (XTree.xirr 0o777) XForest.nil)) ∧
        FsAction.copyFile (Join basePathC (pathOfChain ["a".data, "f".data]))
            (Join targetPathC (pathOfChain ["a".data, "f".data])) mode c ∈
          extractor (XForest.cons "a".data
          (XTree.xdir 0o755 (XForest.cons "f".data (XTree.xfile 0o644 [7]) XForest.nil))
          (XForest.cons "s".data (XTree.xirr 0o777) XForest.nil))) ∧
      (∀ mode g, xsubtreeAt (XTree.xdir 0 (XForest.cons "a".data
          (XTree.xdir 0o755 (XForest.cons "f".data (XTree.xfile 0o644 [7]) XForest.nil))
          (XForest.cons "s".data (XTree.xirr 0o777) XForest.nil)))
          ["a".data, "f".data] = some (XTree.xdir mode g) →
        FsAction.mkdirAll (Join targetPathC (pathOfChain ["a".data, "f".data])) mode ∈
          extractor (XForest.cons "a".data
          (XTree.xdir 0o755 (XForest.cons "f".data (XTree.xfile 0o644 [7]) XForest.nil))
          (XForest.cons "s".data (XTree.xirr 0o777) XForest.nil))) ∧
      (∀ mode, xsubtreeAt (XTree.xdir 0 (XForest.cons "a".data
          (XTree.xdir 0o755 (XForest.cons "f".data (XTree.xfile 0o644 [7]) XForest.nil))
          (XForest.cons "s".data (XTree.xirr 0o777) XForest.nil)))
          ["a".data, "f".data] = some (XTree.xirr mode) →
        ∀ dest mode2 c2,
          FsAction.copyFile (Join basePathC (pathOfChain ["a".data, "f".data]))
              dest mode2 c2 ∉ extractor (XForest.cons "a".data
            (XTree.xdir 0o755 (XForest.cons "f".data (XTree.xfile 0o644 [7]) XForest.nil))
            (XForest.cons "s".data (XTree.xirr 0o777) XForest.nil)))) :=
  ⟨by decide, by decide,
    claim_C8_extractor_copies (XForest.cons "a".data
        (XTree.xdir 0o755 (XForest.cons "f".data (XTree.xfile 0o644 [7]) XForest.nil))
        (XForest.cons "s".data (XTree.xirr 0o777) XForest.nil))
      (by decide) ["a".data, "f".data] (by decide)⟩

example : Clean "a/b/".data = "a/b".data := by decide
example : Clean "".data = ".".data := by decide
example : Clean "/".data = "/".data := by decide
example : Clean "a/./b//c/..".data = "a/b".data := by decide
example : Clean "../../x".data = "../../x".data := by decide
example : Clean "/..".data = "/".data := by decide
example : Dir "a/b".data = "a".data := by decide
example : Dir "gone".data = ".".data := by decide
example : Dir "/a".data = "/".data := by decide
example : Base "a/b".data = "b".data := by decide
example : Base "/".data = "/".data := by decide
example : Join "/var/run/kontext".data ".".data = "/var/run/kontext".data := by decide
example : Join "/var/run/kontext".data "gone/x".data = "/var/run/kontext/gone/x".data := by
  decide
example : walk (FsTree.dir FsForest.nil) = [⟨dotP, true, []⟩] := by decide
example :
    walk (FsTree.dir (FsForest.cons ['a'] (FsTree.file [7]) FsForest.nil)) =
      [⟨dotP, true, []⟩, ⟨['a'], false, [7]⟩] := by decide
example :
    whEntryFor "gone".data =
      ⟨"/var/run/kontext/.wh.gone".data, TarType.reg, 0, 0, []⟩ := by decide

end Kontext
